import Mathlib

/-!
Verification of the `rscli` weighted random sampler (src/main.rs).

The development shallowly embeds the program:

* `f64` values are modelled by `F64`: NaN, the two infinities, negative
  zero, and finite values carried as exact rationals (IEEE rounding of
  finite arithmetic is abstracted away; all special-value rules of
  IEEE-754 multiplication, division and comparison are modelled exactly).
* `f64::log2` on positive finite arguments is irrational-valued, so it is
  a parameter `lg : ℚ → F64` of the embedding; the wrapper `f64Log2`
  implements the IEEE special cases (`log2 0 = -inf`, `log2 x = NaN` for
  `x < 0`, `log2 inf = inf`, `log2 NaN = NaN`).
* `rand::thread_rng` is modelled by a stream `draws : Nat → F64` consumed
  in strict call order through a cursor, one draw per non-excluded record
  plus one draw per incomparable key comparison (the `None` branch of
  `Ord for Line`), exactly as the source consumes it.
* `std::collections::BinaryHeap` push/pop are modelled by the actual
  Rust standard library algorithms (`sift_up`, `sift_down_to_bottom`)
  over a list used as the backing vector.  The loops are written with an
  explicit structural fuel so that the kernel can evaluate them; every
  call site passes fuel strictly larger than the maximal number of
  iterations (`pos + 1` for `sift_up`, whose hole index strictly
  decreases, and `data.length` for the descent of
  `sift_down_to_bottom`, whose hole index strictly increases below
  `data.length`), so the fuel-exhaustion branch is unreachable.
* CSV parsing and clap argument parsing are external collaborators (out
  of scope per the specification); a record is a list of cells, each
  carrying its raw string (used for identifier matching) together with
  the result of `str::parse::<f64>` on it (used by `get_weight`).
-/

namespace Rscli

/-- Model of an `f64` value: NaN, the infinities, negative zero, and
finite values as exact rationals (`fin 0` is positive zero `+0.0`). -/
inductive F64 where
  | nan
  | negInf
  | posInf
  | negZero
  | fin (val : ℚ)
deriving DecidableEq

instance : Inhabited F64 := ⟨F64.nan⟩

/-- Sign bit of a modelled `f64` value, ignoring NaN (whose sign the
program never inspects). -/
def f64IsNeg : F64 → Bool
  | .negInf => true
  | .negZero => true
  | .fin q => decide (q < 0)
  | _ => false

/-- Comparison of two rationals as an `Ordering`. -/
def qcmp (a b : ℚ) : Ordering :=
  if a < b then .lt else if b < a then .gt else .eq

/-- Model of `f64::partial_cmp`: `none` exactly when either operand is
NaN; `-0.0` compares equal to `+0.0`. -/
def f64PartialCmp : F64 → F64 → Option Ordering
  | .nan, _ => none
  | _, .nan => none
  | .negInf, .negInf => some .eq
  | .negInf, _ => some .lt
  | _, .negInf => some .gt
  | .posInf, .posInf => some .eq
  | .posInf, _ => some .gt
  | _, .posInf => some .lt
  | .negZero, .negZero => some .eq
  | .negZero, .fin q => some (qcmp 0 q)
  | .fin q, .negZero => some (qcmp q 0)
  | .fin a, .fin b => some (qcmp a b)

/-- Model of the `f64` operator `>` (false on NaN operands). -/
def f64Gt (a b : F64) : Bool :=
  match f64PartialCmp a b with
  | some .gt => true
  | _ => false

/-- Model of the `f64` comparison `x == 0.0` (true for `+0.0` and
`-0.0`, false for NaN). -/
def f64IsZero (a : F64) : Bool :=
  match f64PartialCmp a (F64.fin 0) with
  | some .eq => true
  | _ => false

/-- IEEE-754 multiplication on modelled values; finite arithmetic is
exact rational arithmetic (rounding abstracted). -/
def f64Mul : F64 → F64 → F64
  | .nan, _ => .nan
  | _, .nan => .nan
  | .posInf, .posInf => .posInf
  | .posInf, .negInf => .negInf
  | .negInf, .posInf => .negInf
  | .negInf, .negInf => .posInf
  | .posInf, .negZero => .nan
  | .negZero, .posInf => .nan
  | .negInf, .negZero => .nan
  | .negZero, .negInf => .nan
  | .posInf, .fin q => if q = 0 then .nan else if q < 0 then .negInf else .posInf
  | .fin q, .posInf => if q = 0 then .nan else if q < 0 then .negInf else .posInf
  | .negInf, .fin q => if q = 0 then .nan else if q < 0 then .posInf else .negInf
  | .fin q, .negInf => if q = 0 then .nan else if q < 0 then .posInf else .negInf
  | .negZero, .negZero => .fin 0
  | .negZero, .fin q => if q < 0 then .fin 0 else .negZero
  | .fin q, .negZero => if q < 0 then .fin 0 else .negZero
  | .fin a, .fin b =>
      if a * b = 0 then
        (if (decide (a < 0)) != (decide (b < 0)) then .negZero else .fin 0)
      else .fin (a * b)

/-- IEEE-754 division on modelled values; finite arithmetic is exact
rational arithmetic (rounding abstracted). -/
def f64Div : F64 → F64 → F64
  | .nan, _ => .nan
  | _, .nan => .nan
  | .posInf, .posInf => .nan
  | .posInf, .negInf => .nan
  | .negInf, .posInf => .nan
  | .negInf, .negInf => .nan
  | .posInf, .negZero => .negInf
  | .posInf, .fin q => if q < 0 then .negInf else .posInf
  | .negInf, .negZero => .posInf
  | .negInf, .fin q => if q < 0 then .posInf else .negInf
  | .negZero, .posInf => .negZero
  | .negZero, .negInf => .fin 0
  | .fin q, .posInf => if q < 0 then .negZero else .fin 0
  | .fin q, .negInf => if q < 0 then .fin 0 else .negZero
  | .negZero, .negZero => .nan
  | .negZero, .fin q => if q = 0 then .nan else if q < 0 then .fin 0 else .negZero
  | .fin a, .negZero => if a = 0 then .nan else if a < 0 then .posInf else .negInf
  | .fin a, .fin b =>
      if b = 0 then (if a = 0 then .nan else if a < 0 then .negInf else .posInf)
      else if a = 0 then (if b < 0 then .negZero else .fin 0)
      else .fin (a / b)

/-- Model of `f64::log2`.  The parameter `lg` gives the (abstract) value
of `log2` on positive finite arguments; the IEEE special cases are
implemented directly. -/
def f64Log2 (lg : ℚ → F64) : F64 → F64
  | .nan => .nan
  | .posInf => .posInf
  | .negInf => .nan
  | .negZero => .negInf
  | .fin q => if q = 0 then .negInf else if q < 0 then .nan else lg q

/-- One field of a CSV record: the raw string (used for identifier
matching) together with the result of `str::parse::<f64>` on it (used by
`get_weight`); parsing itself is an external collaborator. -/
structure Cell where
  raw : String
  parsed : Option F64
deriving DecidableEq

/-- Model of `csv::StringRecord`: an ordered sequence of fields. -/
structure Record where
  cells : List Cell
deriving DecidableEq

/-- Model of `StringRecord::get`. -/
def Record.get (r : Record) (i : Nat) : Option Cell :=
  r.cells.get? i

/-- Model of the `Line` struct pushed onto the heap. -/
structure Line where
  record : Record
  weight : F64
  randomness : F64
  position_index : F64
  tie_breaker : Nat
deriving DecidableEq

instance : Inhabited Line :=
  ⟨{ record := ⟨[]⟩, weight := .nan, randomness := .nan,
     position_index := .nan, tie_breaker := 0 }⟩

/-- Model of `impl Ord for Line`: the float comparison is applied to the
operands in reversed order (`other.position_index.partial_cmp(&self.position_index)`),
and the `None` branch (incomparable keys, i.e. a NaN) draws one random
`f64` and compares the `tie_breaker` fields in a direction chosen by the
coin `draw > 0.5`.  The rng cursor `k` is returned updated. -/
def lineCmp (draws : Nat → F64) (a b : Line) (k : Nat) : Ordering × Nat :=
  match f64PartialCmp b.position_index a.position_index with
  | some o => (o, k)
  | none =>
      if f64Gt (draws k) (F64.fin (1/2)) then
        (compare b.tie_breaker a.tie_breaker, k + 1)
      else
        (compare a.tie_breaker b.tie_breaker, k + 1)

/-- Model of `get_weight`: resolve the weight of a record, `1.0` when no
weight column is configured, and `f64::NEG_INFINITY` when the field is
missing or does not parse as an `f64`. -/
def get_weight (column : Option Nat) (record : Record) : F64 :=
  match column with
  | some i =>
      match record.get i with
      | some c =>
          match c.parsed with
          | some w => w
          | none => F64.negInf
      | none => F64.negInf
  | none => F64.fin 1

/-- Write `v` at index `i` of a list (identity when out of bounds);
models an in-place vector store. -/
def lset {α : Type} : List α → Nat → α → List α
  | [], _, _ => []
  | _ :: t, 0, v => v :: t
  | h :: t, n + 1, v => h :: lset t n v

/-- Read index `i` of a list (default element when out of bounds);
models an in-bounds vector load. -/
def lget {α : Type} [Inhabited α] : List α → Nat → α
  | [], _ => default
  | h :: _, 0 => h
  | _ :: t, n + 1 => lget t n

/-- Model of `BinaryHeap::sift_up` (Rust standard library): the element
`x` occupies a hole at index `pos` and moves up while it compares
`Greater` than its parent.  `fuel` strictly exceeds the iteration count
at every call site (`pos` strictly decreases each round). -/
def siftUp {α : Type} [Inhabited α] (c : α → α → Nat → Ordering × Nat)
    (data : List α) (x : α) (pos k fuel : Nat) : List α × Nat :=
  match fuel with
  | 0 => (lset data pos x, k)
  | fuel + 1 =>
      if pos = 0 then (lset data pos x, k)
      else
        let parent := (pos - 1) / 2
        let pr := c x (lget data parent) k
        if pr.1 = Ordering.gt then
          siftUp c (lset data pos (lget data parent)) x parent pr.2 fuel
        else (lset data pos x, pr.2)

/-- Model of `BinaryHeap::push`: append the element and sift it up from
the former length. -/
def heapPush {α : Type} [Inhabited α] (c : α → α → Nat → Ordering × Nat)
    (data : List α) (x : α) (k : Nat) : List α × Nat :=
  siftUp c (data.concat x) x data.length k (data.length + 1)

/-- Descent phase of `BinaryHeap::sift_down_to_bottom`: the hole at
`pos` moves to the bottom of the tree, always toward the child that
compares `Greater-or-equal` (the second child when the first is not
`Greater`).  Returns the array, the final hole position, and the rng
cursor.  `fuel` strictly exceeds the iteration count at every call site
(the hole index strictly increases and stays below `data.length`). -/
def siftDownLoop {α : Type} [Inhabited α] (c : α → α → Nat → Ordering × Nat)
    (data : List α) (pos k fuel : Nat) : List α × Nat × Nat :=
  match fuel with
  | 0 => (data, pos, k)
  | fuel + 1 =>
      let child := 2 * pos + 1
      if child + 1 < data.length then
        let pr := c (lget data child) (lget data (child + 1)) k
        let chosen := if pr.1 = Ordering.gt then child else child + 1
        siftDownLoop c (lset data pos (lget data chosen)) chosen pr.2 fuel
      else if child + 1 = data.length then
        (lset data pos (lget data child), child, k)
      else (data, pos, k)

/-- Model of `BinaryHeap::sift_down_to_bottom`: move the hole (starting
at the root) to the bottom, then sift the element `x` up from there. -/
def siftDown {α : Type} [Inhabited α] (c : α → α → Nat → Ordering × Nat)
    (data : List α) (x : α) (k : Nat) : List α × Nat :=
  let r := siftDownLoop c data 0 k data.length
  siftUp c r.1 x r.2.1 r.2.2 (r.2.1 + 1)

/-- Model of `BinaryHeap::pop`: remove the last element; if the heap is
still non-empty, swap it with the root and sift it down.  Returns the
popped element (the old root), the new backing vector, and the rng
cursor. -/
def heapPop {α : Type} [Inhabited α] (c : α → α → Nat → Ordering × Nat)
    (data : List α) (k : Nat) : Option α × List α × Nat :=
  if data.length = 0 then (none, data, k)
  else
    let item := lget data (data.length - 1)
    let data1 := data.dropLast
    if data1.length = 0 then (some item, data1, k)
    else
      let root := lget data1 0
      let r := siftDown c data1 item k
      (some root, r.1, r.2)

/-- Configuration of one run after column resolution: weight column,
identifier column, include list, exclude list, and sample count `K`. -/
structure Ctx where
  wcol : Option Nat
  idc : Nat
  inc : List String
  exc : List String
  K : Nat
deriving DecidableEq

/-- Mutable state of the processing loop: the heap's backing vector, the
tie-breaker counter `i`, and the rng cursor. -/
structure LoopState where
  heap : List Line
  i : Nat
  rng : Nat
deriving DecidableEq

/-- Abort conditions of `process_data`: the weight column `Err`, the
`expect` on the identifier column, the `unwrap` on the identifier field,
and the `panic!` guard on a zero sampling key. -/
inductive RunError where
  | weightColNotFound (name : String)
  | idColNotFound
  | missingIdField
  | zeroKeyPanic
deriving DecidableEq

/-- Body of the record loop of `process_data` for a single record:
check exclusion, resolve the weight, draw one random `f64`, compute the
sampling key (`f64::INFINITY` for forced includes, otherwise
`(1.0 / weight) * draw.log2()`), panic if the key equals `0.0`, push the
line, and pop the heap minimum when the heap exceeds `K` elements. -/
def stepRecord (ctx : Ctx) (lg : ℚ → F64) (draws : Nat → F64)
    (r : Record) (s : LoopState) : Except RunError LoopState :=
  match r.get ctx.idc with
  | none => .error .missingIdField
  | some f =>
      if ctx.exc.contains f.raw then .ok s
      else
        let weight := get_weight ctx.wcol r
        let u := draws s.rng
        let key := if ctx.inc.contains f.raw then F64.posInf
                   else f64Mul (f64Div (F64.fin 1) weight) (f64Log2 lg u)
        if f64IsZero key then .error .zeroKeyPanic
        else
          let line : Line := { record := r, weight := weight, randomness := u,
                               position_index := key, tie_breaker := s.i }
          let p := heapPush (lineCmp draws) s.heap line (s.rng + 1)
          if ctx.K < p.1.length then
            let q := heapPop (lineCmp draws) p.1 p.2
            .ok { heap := q.2.1, i := s.i + 1, rng := q.2.2 }
          else .ok { heap := p.1, i := s.i + 1, rng := p.2 }

/-- The record loop of `process_data` over the whole stream. -/
def runLoop (ctx : Ctx) (lg : ℚ → F64) (draws : Nat → F64) :
    List Record → LoopState → Except RunError LoopState
  | [], s => .ok s
  | r :: rs, s =>
      match stepRecord ctx lg draws r s with
      | .error e => .error e
      | .ok s' => runLoop ctx lg draws rs s'

/-- Model of the command line arguments relevant to `process_data`. -/
structure Cli where
  sample_count : Nat
  weights : Option String
  includeIds : Option (List String)
  excludeIds : Option (List String)
  id_col : Option String
deriving DecidableEq

/-- Resolution of the weight column name against the header
(`Err(NotFound)` when the named column does not exist). -/
def resolveWeightCol (weights : Option String) (header : List String) :
    Except RunError (Option Nat) :=
  match weights with
  | some w =>
      match List.findIdx? (fun r => r == w) header with
      | some i => .ok (some i)
      | none => .error (.weightColNotFound w)
  | none => .ok none

/-- Resolution of the identifier column name against the header (panic
via `expect` when the named column does not exist; default column 0). -/
def resolveIdCol (idcol : Option String) (header : List String) :
    Except RunError Nat :=
  match idcol with
  | some w =>
      match List.findIdx? (fun r => r == w) header with
      | some i => .ok i
      | none => .error .idColNotFound
  | none => .ok 0

/-- Output of a successful run: the header record followed by the
retained records in the order of the heap's backing vector (the
iteration order of `BinaryHeap::iter`). -/
structure Output where
  header : List String
  rows : List Record
deriving DecidableEq

/-- Model of `DataProc::process_data`: resolve the weight and identifier
columns, default the include and exclude lists to empty, run the record
loop from an empty heap, and emit the header followed by the retained
records. -/
def process_data (lg : ℚ → F64) (args : Cli) (header : List String)
    (records : List Record) (draws : Nat → F64) : Except RunError Output :=
  match resolveWeightCol args.weights header with
  | .error e => .error e
  | .ok wcol =>
      match resolveIdCol args.id_col header with
      | .error e => .error e
      | .ok idc =>
          let inc := args.includeIds.getD []
          let exc := args.excludeIds.getD []
          match runLoop { wcol := wcol, idc := idc, inc := inc, exc := exc,
                          K := args.sample_count } lg draws records
                        { heap := [], i := 0, rng := 0 } with
          | .error e => .error e
          | .ok s => .ok { header := header, rows := s.heap.map Line.record }

/-- The line's key is not NaN (its comparisons are deterministic). -/
def goodL (l : Line) : Prop := l.position_index ≠ F64.nan

/-- The line carries the forced-include sentinel key. -/
def infL (l : Line) : Prop := l.position_index = F64.posInf

/-- Every line of the backing vector has a non-NaN key. -/
def goodAll (data : List Line) : Prop := ∀ l ∈ data, goodL l

/-- Every child of a `posInf`-keyed node is `posInf`-keyed (node `j` has
parent `(j-1)/2`). -/
def AInv (data : List Line) : Prop :=
  ∀ j, j < data.length → j ≠ 0 → infL (lget data ((j - 1) / 2)) → infL (lget data j)

instance : DecidablePred infL :=
  fun l => inferInstanceAs (Decidable (l.position_index = F64.posInf))

/-- Number of forced-include (sentinel-keyed) lines in a heap. -/
def countInfM (m : Multiset Line) : Nat := Multiset.countP infL m

/-- A record that passes the exclusion filter (classified `Normal` or
`ForcedInclude`), i.e. one that is offered to the bounded selector. -/
def offered (idc : Nat) (exc : List String) (r : Record) : Bool :=
  match r.get idc with
  | some f => !(exc.contains f.raw)
  | none => false

/-- A record classified `ForcedInclude`: its identifier is in the
include list and not in the exclude list. -/
def forced (idc : Nat) (inc exc : List String) (r : Record) : Bool :=
  match r.get idc with
  | some f => inc.contains f.raw && !(exc.contains f.raw)
  | none => false

/-- The `Line` value pushed for a non-excluded record, as a function of
the drawn randomness `u` and the tie-breaker counter `i`. -/
def stepLine (ctx : Ctx) (lg : ℚ → F64) (f : Cell) (r : Record) (u : F64) (i : Nat) : Line :=
  { record := r, weight := get_weight ctx.wcol r, randomness := u,
    position_index :=
      if ctx.inc.contains f.raw then F64.posInf
      else f64Mul (f64Div (F64.fin 1) (get_weight ctx.wcol r)) (f64Log2 lg u),
    tie_breaker := i }

/-! ### Decidable equality on run results, and concrete inputs used to
exercise the embedding on closed runs -/

instance {ε α : Type} [DecidableEq ε] [DecidableEq α] : DecidableEq (Except ε α) :=
  fun a b =>
    match a, b with
    | .ok x, .ok y =>
        decidable_of_iff (x = y)
          ⟨fun h => congrArg Except.ok h, fun h => Except.ok.inj h⟩
    | .error x, .error y =>
        decidable_of_iff (x = y)
          ⟨fun h => congrArg Except.error h, fun h => Except.error.inj h⟩
    | .ok _, .error _ => .isFalse (fun h => Except.noConfusion h)
    | .error _, .ok _ => .isFalse (fun h => Except.noConfusion h)

/-- A concrete `log2` witness: constantly `-1` on positive finite input. -/
def lgW : ℚ → F64 := fun _ => F64.fin (-1)

/-- A concrete draw stream: constantly `0.5`. -/
def drawsW : Nat → F64 := fun _ => F64.fin (1/2)

/-- The same draw stream written differently (`2/4` instead of `1/2`). -/
def drawsW2 : Nat → F64 := fun _ => F64.fin (2/4)

/-- A draw stream whose coin flips land above `0.5`. -/
def drawsHi : Nat → F64 := fun _ => F64.fin 1

/-- A draw stream whose coin flips land below `0.5`. -/
def drawsLo : Nat → F64 := fun _ => F64.fin 0

def recA : Record := ⟨[⟨"A", none⟩]⟩
def recB : Record := ⟨[⟨"B", none⟩]⟩
def recX : Record := ⟨[⟨"X", none⟩]⟩
def recY : Record := ⟨[⟨"Y", none⟩]⟩
def hdrW : List String := ["id", "w"]
def recZeroW : Record := ⟨[⟨"a", none⟩, ⟨"0", some (F64.fin 0)⟩]⟩
def recBadW : Record := ⟨[⟨"a", none⟩, ⟨"abc", none⟩]⟩
def recInfW : Record := ⟨[⟨"b", none⟩, ⟨"inf", some F64.posInf⟩]⟩
def recA1000 : Record := ⟨[⟨"A", none⟩, ⟨"1000", some (F64.fin 1000)⟩]⟩
def recX1 : Record := ⟨[⟨"X", none⟩, ⟨"0.0001", some (F64.fin (1/10000))⟩]⟩

def cliW : Cli :=
  { sample_count := 1, weights := none, includeIds := none, excludeIds := none, id_col := none }
def cliK0 : Cli :=
  { sample_count := 0, weights := none, includeIds := none, excludeIds := none, id_col := none }
def cliC2 : Cli :=
  { sample_count := 1, weights := some "w", includeIds := none, excludeIds := none,
    id_col := none }
def cliC3 : Cli :=
  { sample_count := 1, weights := none, includeIds := some ["X", "Y"], excludeIds := none,
    id_col := none }
def cliC3b : Cli :=
  { sample_count := 1, weights := some "w", includeIds := some ["X"], excludeIds := none,
    id_col := none }
def cliC4 : Cli :=
  { sample_count := 3, weights := none, includeIds := none, excludeIds := some ["B"],
    id_col := none }

def ctxW : Ctx := { wcol := some 1, idc := 0, inc := [], exc := [], K := 1 }

def lineC8 : Line :=
  { record := recA1000, weight := F64.fin 1000, randomness := F64.fin (1/2),
    position_index := F64.fin (-(1/1000)), tie_breaker := 0 }
def sC8 : LoopState := { heap := [lineC8], i := 1, rng := 1 }

def lineE0 : Line :=
  { record := recA, weight := F64.fin 1, randomness := F64.fin (1/2),
    position_index := F64.fin 1, tie_breaker := 0 }
def lineE1 : Line :=
  { record := recB, weight := F64.fin 1, randomness := F64.fin (1/2),
    position_index := F64.fin 1, tie_breaker := 1 }
def lineN : Line :=
  { record := recA, weight := F64.nan, randomness := F64.fin (1/2),
    position_index := F64.nan, tie_breaker := 5 }

/-! ### Basic facts about the vector primitives -/

theorem lset_length {α : Type} (l : List α) (i : Nat) (v : α) :
    (lset l i v).length = l.length := by
  induction l generalizing i with
  | nil => rfl
  | cons h t ih =>
      cases i with
      | zero => rfl
      | succ n => simpa [lset] using ih n

theorem lget_lset_self {α : Type} [Inhabited α] (l : List α) (i : Nat) (v : α)
    (h : i < l.length) : lget (lset l i v) i = v := by
  induction l generalizing i with
  | nil => simp at h
  | cons hd t ih =>
      cases i with
      | zero => rfl
      | succ n => simpa [lset, lget] using ih n (by simpa using h)

theorem lget_lset_ne {α : Type} [Inhabited α] (l : List α) (i j : Nat) (v : α)
    (h : j ≠ i) : lget (lset l i v) j = lget l j := by
  induction l generalizing i j with
  | nil => rfl
  | cons hd t ih =>
      cases i with
      | zero =>
          cases j with
          | zero => exact absurd rfl h
          | succ m => rfl
      | succ n =>
          cases j with
          | zero => rfl
          | succ m => simpa [lset, lget] using ih n m (by omega)

theorem lget_mem {α : Type} [Inhabited α] (l : List α) (i : Nat)
    (h : i < l.length) : lget l i ∈ l := by
  induction l generalizing i with
  | nil => simp at h
  | cons hd t ih =>
      cases i with
      | zero => exact List.mem_cons_self _ _
      | succ n => exact List.mem_cons_of_mem _ (ih n (by simpa using h))

theorem ms_lset {α : Type} [Inhabited α] (l : List α) (i : Nat) (v : α)
    (h : i < l.length) :
    lget l i ::ₘ ((lset l i v : List α) : Multiset α) = v ::ₘ (l : Multiset α) := by
  induction l generalizing i with
  | nil => simp at h
  | cons hd t ih =>
      cases i with
      | zero =>
          show hd ::ₘ ((v :: t : List α) : Multiset α) = v ::ₘ ((hd :: t : List α) : Multiset α)
          simp only [← Multiset.cons_coe]
          exact Multiset.cons_swap hd v (t : Multiset α)
      | succ n =>
          have := ih n (by simpa using h)
          simp only [lset, lget, ← Multiset.cons_coe]
          rw [Multiset.cons_swap, this, Multiset.cons_swap]

theorem ms_concat {α : Type} (l : List α) (x : α) :
    ((l.concat x : List α) : Multiset α) = x ::ₘ (l : Multiset α) := by
  rw [List.concat_eq_append, Multiset.cons_coe]
  exact Multiset.coe_eq_coe.mpr (List.perm_append_singleton x l)

theorem lget_concat_self {α : Type} [Inhabited α] (l : List α) (x : α) :
    lget (l.concat x) l.length = x := by
  induction l with
  | nil => rfl
  | cons hd t ih => simpa [List.concat, lget] using ih

theorem lget_concat_lt {α : Type} [Inhabited α] (l : List α) (x : α) (i : Nat)
    (h : i < l.length) : lget (l.concat x) i = lget l i := by
  induction l generalizing i with
  | nil => simp at h
  | cons hd t ih =>
      cases i with
      | zero => rfl
      | succ n => simpa [List.concat, lget] using ih n (by simpa using h)

theorem lget_dropLast {α : Type} [Inhabited α] (l : List α) (i : Nat)
    (h : i + 1 < l.length) : lget l.dropLast i = lget l i := by
  induction l generalizing i with
  | nil => rfl
  | cons hd t ih =>
      cases t with
      | nil => simp at h
      | cons hd2 t2 =>
          cases i with
          | zero => rfl
          | succ n =>
              have := ih n (by simpa using h)
              simpa [List.dropLast, lget] using this

theorem ms_dropLast {α : Type} [Inhabited α] (l : List α) (h : l.length ≠ 0) :
    lget l (l.length - 1) ::ₘ ((l.dropLast : List α) : Multiset α) = (l : Multiset α) := by
  induction l with
  | nil => simp at h
  | cons hd t ih =>
      cases t with
      | nil => simp [lget]
      | cons hd2 t2 =>
          have h2 : lget (hd2 :: t2) t2.length ::ₘ ((hd2 :: t2).dropLast : Multiset α) =
              ((hd2 :: t2 : List α) : Multiset α) := by
            simpa [List.length_cons] using ih (by simp)
          simp only [List.length_cons]
          have hidx : t2.length + 1 + 1 - 1 = t2.length + 1 := by omega
          rw [hidx]
          show lget (hd2 :: t2) t2.length ::ₘ ((hd :: (hd2 :: t2).dropLast : List α) : Multiset α) =
            ((hd :: hd2 :: t2 : List α) : Multiset α)
          rw [← Multiset.cons_coe, Multiset.cons_swap, h2, Multiset.cons_coe]

/-! ### Facts about the modelled float comparison -/

theorem f64PartialCmp_isSome (a b : F64) (ha : a ≠ F64.nan) (hb : b ≠ F64.nan) :
    ∃ o, f64PartialCmp a b = some o := by
  cases a <;> cases b <;> simp_all [f64PartialCmp]

theorem f64PartialCmp_none (a b : F64) :
    f64PartialCmp a b = none ↔ a = F64.nan ∨ b = F64.nan := by
  cases a <;> cases b <;> simp [f64PartialCmp]

theorem not_gt_posInf (a : F64) : f64PartialCmp a F64.posInf ≠ some Ordering.gt := by
  cases a <;> simp [f64PartialCmp]

theorem posInf_not_gt (b : F64) (hb : b ≠ F64.nan)
    (h : f64PartialCmp F64.posInf b ≠ some Ordering.gt) : b = F64.posInf := by
  cases b <;> simp_all [f64PartialCmp]

theorem lineCmp_of_some (d : Nat → F64) (a b : Line) (k : Nat) (o : Ordering)
    (h : f64PartialCmp b.position_index a.position_index = some o) :
    lineCmp d a b k = (o, k) := by
  simp [lineCmp, h]

theorem lineCmp_good (d : Nat → F64) (a b : Line) (k : Nat)
    (ha : a.position_index ≠ F64.nan) (hb : b.position_index ≠ F64.nan) :
    ∃ o, f64PartialCmp b.position_index a.position_index = some o ∧
      lineCmp d a b k = (o, k) := by
  obtain ⟨o, ho⟩ := f64PartialCmp_isSome _ _ hb ha
  exact ⟨o, ho, lineCmp_of_some d a b k o ho⟩

/-! ### Size and multiset specifications of the heap operations

These hold for an arbitrary comparator: the sift procedures only move
the elements already present (plus the floating hole element) around the
backing vector. -/

theorem siftUp_spec {α : Type} [Inhabited α] (c : α → α → Nat → Ordering × Nat) (x : α) :
    ∀ (fuel pos : Nat) (data : List α) (k : Nat), pos + 1 ≤ fuel → pos < data.length →
    (siftUp c data x pos k fuel).1.length = data.length ∧
    lget data pos ::ₘ ((siftUp c data x pos k fuel).1 : Multiset α) =
      x ::ₘ (data : Multiset α) := by
  intro fuel
  induction fuel with
  | zero => intro pos data k hf _; omega
  | succ fuel ih =>
      intro pos data k hf hpos
      by_cases hp : pos = 0
      · subst hp
        simp only [siftUp, if_pos rfl]
        exact ⟨lset_length _ _ _, ms_lset _ _ _ hpos⟩
      · rcases hpr : c x (lget data ((pos - 1) / 2)) k with ⟨o, k'⟩
        by_cases ho : o = Ordering.gt
        · subst ho
          have hrw : siftUp c data x pos k (fuel + 1) =
              siftUp c (lset data pos (lget data ((pos - 1) / 2))) x ((pos - 1) / 2) k' fuel := by
            simp only [siftUp, if_neg hp, hpr, if_true, if_false]
          have hplt : (pos - 1) / 2 < pos := by omega
          have h1 := ih ((pos - 1) / 2) (lset data pos (lget data ((pos - 1) / 2))) k'
            (by omega) (by rw [lset_length]; omega)
          rw [lget_lset_ne _ _ _ _ (by omega)] at h1
          have h2 := ms_lset data pos (lget data ((pos - 1) / 2)) hpos
          rw [hrw]
          refine ⟨by rw [h1.1, lset_length], ?_⟩
          apply (Multiset.cons_inj_right (lget data ((pos - 1) / 2))).mp
          calc lget data ((pos - 1) / 2) ::ₘ (lget data pos ::ₘ
                ((siftUp c (lset data pos (lget data ((pos - 1) / 2))) x ((pos - 1) / 2) k' fuel).1 :
                  Multiset α))
              = lget data pos ::ₘ (lget data ((pos - 1) / 2) ::ₘ
                ((siftUp c (lset data pos (lget data ((pos - 1) / 2))) x ((pos - 1) / 2) k' fuel).1 :
                  Multiset α)) := Multiset.cons_swap _ _ _
            _ = lget data pos ::ₘ (x ::ₘ ((lset data pos (lget data ((pos - 1) / 2)) : List α) :
                  Multiset α)) := by rw [h1.2]
            _ = x ::ₘ (lget data pos ::ₘ ((lset data pos (lget data ((pos - 1) / 2)) : List α) :
                  Multiset α)) := Multiset.cons_swap _ _ _
            _ = x ::ₘ (lget data ((pos - 1) / 2) ::ₘ (data : Multiset α)) := by rw [h2]
            _ = lget data ((pos - 1) / 2) ::ₘ (x ::ₘ (data : Multiset α)) := Multiset.cons_swap _ _ _
        · have hrw : siftUp c data x pos k (fuel + 1) = (lset data pos x, k') := by
            simp only [siftUp, if_neg hp, hpr, if_neg ho]
          rw [hrw]
          exact ⟨lset_length _ _ _, ms_lset _ _ _ hpos⟩

theorem siftDownLoop_spec {α : Type} [Inhabited α] (c : α → α → Nat → Ordering × Nat) :
    ∀ (fuel pos : Nat) (data : List α) (k : Nat),
    data.length - pos ≤ fuel → pos < data.length →
    (siftDownLoop c data pos k fuel).1.length = data.length ∧
    (siftDownLoop c data pos k fuel).2.1 < data.length ∧
    data.length ≤ 2 * (siftDownLoop c data pos k fuel).2.1 + 1 ∧
    lget data pos ::ₘ ((siftDownLoop c data pos k fuel).1 : Multiset α) =
      lget (siftDownLoop c data pos k fuel).1 (siftDownLoop c data pos k fuel).2.1 ::ₘ
        (data : Multiset α) := by
  intro fuel
  induction fuel with
  | zero => intro pos data k hf hpos; omega
  | succ fuel ih =>
      intro pos data k hf hpos
      by_cases hc1 : 2 * pos + 1 + 1 < data.length
      · rcases hpr : c (lget data (2 * pos + 1)) (lget data (2 * pos + 1 + 1)) k with ⟨o, k'⟩
        set chosen := if o = Ordering.gt then 2 * pos + 1 else 2 * pos + 1 + 1 with hch
        have hchl : pos < chosen ∧ chosen < data.length := by
          by_cases hgt : o = Ordering.gt
          · rw [hch, if_pos hgt]; omega
          · rw [hch, if_neg hgt]; omega
        have hrw : siftDownLoop c data pos k (fuel + 1) =
            siftDownLoop c (lset data pos (lget data chosen)) chosen k' fuel := by
          simp only [siftDownLoop, if_pos hc1, hpr, hch]
        have h1 := ih chosen (lset data pos (lget data chosen)) k'
          (by rw [lset_length]; omega) (by rw [lset_length]; exact hchl.2)
        rw [lset_length] at h1
        rw [hrw]
        refine ⟨h1.1, h1.2.1, h1.2.2.1, ?_⟩
        have hgc : lget (lset data pos (lget data chosen)) chosen = lget data chosen :=
          lget_lset_ne _ _ _ _ (by omega)
        have h2 := ms_lset data pos (lget data chosen) hpos
        have h3 := h1.2.2.2
        rw [hgc] at h3
        apply (Multiset.cons_inj_right (lget data chosen)).mp
        calc lget data chosen ::ₘ (lget data pos ::ₘ
              ((siftDownLoop c (lset data pos (lget data chosen)) chosen k' fuel).1 : Multiset α))
            = lget data pos ::ₘ (lget data chosen ::ₘ
              ((siftDownLoop c (lset data pos (lget data chosen)) chosen k' fuel).1 : Multiset α)) :=
              Multiset.cons_swap _ _ _
          _ = lget data pos ::ₘ
              (lget (siftDownLoop c (lset data pos (lget data chosen)) chosen k' fuel).1
                  (siftDownLoop c (lset data pos (lget data chosen)) chosen k' fuel).2.1 ::ₘ
                ((lset data pos (lget data chosen) : List α) : Multiset α)) := by rw [h3]
          _ = lget (siftDownLoop c (lset data pos (lget data chosen)) chosen k' fuel).1
                  (siftDownLoop c (lset data pos (lget data chosen)) chosen k' fuel).2.1 ::ₘ
              (lget data pos ::ₘ ((lset data pos (lget data chosen) : List α) : Multiset α)) :=
              Multiset.cons_swap _ _ _
          _ = lget (siftDownLoop c (lset data pos (lget data chosen)) chosen k' fuel).1
                  (siftDownLoop c (lset data pos (lget data chosen)) chosen k' fuel).2.1 ::ₘ
              (lget data chosen ::ₘ (data : Multiset α)) := by rw [h2]
          _ = lget data chosen ::ₘ
              (lget (siftDownLoop c (lset data pos (lget data chosen)) chosen k' fuel).1
                  (siftDownLoop c (lset data pos (lget data chosen)) chosen k' fuel).2.1 ::ₘ
                (data : Multiset α)) := Multiset.cons_swap _ _ _
      · by_cases hc2 : 2 * pos + 1 + 1 = data.length
        · have hrw : siftDownLoop c data pos k (fuel + 1) =
              (lset data pos (lget data (2 * pos + 1)), 2 * pos + 1, k) := by
            simp only [siftDownLoop, if_neg hc1, if_pos hc2]
          rw [hrw]
          have hcl : 2 * pos + 1 < data.length := by omega
          refine ⟨lset_length _ _ _, ?_, ?_, ?_⟩
          · show 2 * pos + 1 < data.length
            omega
          · show data.length ≤ 2 * (2 * pos + 1) + 1
            omega
          · show lget data pos ::ₘ ((lset data pos (lget data (2 * pos + 1)) : List α) :
                Multiset α) =
              lget (lset data pos (lget data (2 * pos + 1))) (2 * pos + 1) ::ₘ
                (data : Multiset α)
            rw [lget_lset_ne _ _ _ _ (by omega)]
            exact ms_lset _ _ _ hpos
        · have hrw : siftDownLoop c data pos k (fuel + 1) = (data, pos, k) := by
            simp only [siftDownLoop, if_neg hc1, if_neg hc2]
          rw [hrw]
          refine ⟨rfl, hpos, ?_, rfl⟩
          show data.length ≤ 2 * pos + 1
          omega

theorem siftDown_spec {α : Type} [Inhabited α] (c : α → α → Nat → Ordering × Nat)
    (data : List α) (x : α) (k : Nat) (hpos : 0 < data.length) :
    (siftDown c data x k).1.length = data.length ∧
    lget data 0 ::ₘ ((siftDown c data x k).1 : Multiset α) = x ::ₘ (data : Multiset α) := by
  have h1 := siftDownLoop_spec c data.length 0 data k (by omega) hpos
  have h2 := siftUp_spec c x ((siftDownLoop c data 0 k data.length).2.1 + 1)
    (siftDownLoop c data 0 k data.length).2.1 (siftDownLoop c data 0 k data.length).1
    (siftDownLoop c data 0 k data.length).2.2 (by omega) (by rw [h1.1]; exact h1.2.1)
  constructor
  · show (siftUp c _ x _ _ _).1.length = _
    rw [h2.1, h1.1]
  · show lget data 0 ::ₘ ((siftUp c _ x _ _ _).1 : Multiset α) = x ::ₘ (data : Multiset α)
    apply (Multiset.cons_inj_right
      (lget (siftDownLoop c data 0 k data.length).1
        (siftDownLoop c data 0 k data.length).2.1)).mp
    calc lget (siftDownLoop c data 0 k data.length).1
            (siftDownLoop c data 0 k data.length).2.1 ::ₘ
          (lget data 0 ::ₘ ((siftUp c (siftDownLoop c data 0 k data.length).1 x
              (siftDownLoop c data 0 k data.length).2.1
              (siftDownLoop c data 0 k data.length).2.2
              ((siftDownLoop c data 0 k data.length).2.1 + 1)).1 : Multiset α))
        = lget data 0 ::ₘ (lget (siftDownLoop c data 0 k data.length).1
            (siftDownLoop c data 0 k data.length).2.1 ::ₘ
            ((siftUp c (siftDownLoop c data 0 k data.length).1 x
              (siftDownLoop c data 0 k data.length).2.1
              (siftDownLoop c data 0 k data.length).2.2
              ((siftDownLoop c data 0 k data.length).2.1 + 1)).1 : Multiset α)) :=
        Multiset.cons_swap _ _ _
      _ = lget data 0 ::ₘ (x ::ₘ (((siftDownLoop c data 0 k data.length).1 : List α) :
            Multiset α)) := by rw [h2.2]
      _ = x ::ₘ (lget data 0 ::ₘ (((siftDownLoop c data 0 k data.length).1 : List α) :
            Multiset α)) := Multiset.cons_swap _ _ _
      _ = x ::ₘ (lget (siftDownLoop c data 0 k data.length).1
            (siftDownLoop c data 0 k data.length).2.1 ::ₘ (data : Multiset α)) := by
          rw [h1.2.2.2]
      _ = lget (siftDownLoop c data 0 k data.length).1
            (siftDownLoop c data 0 k data.length).2.1 ::ₘ (x ::ₘ (data : Multiset α)) :=
        Multiset.cons_swap _ _ _

theorem heapPush_spec {α : Type} [Inhabited α] (c : α → α → Nat → Ordering × Nat)
    (data : List α) (x : α) (k : Nat) :
    (heapPush c data x k).1.length = data.length + 1 ∧
    ((heapPush c data x k).1 : Multiset α) = x ::ₘ (data : Multiset α) := by
  have h := siftUp_spec c x (data.length + 1) data.length (data.concat x) k (by omega)
    (by simp [List.length_concat])
  rw [lget_concat_self, ms_concat] at h
  refine ⟨by rw [show (heapPush c data x k).1 = (siftUp c (data.concat x) x data.length k
    (data.length + 1)).1 from rfl, h.1, List.length_concat], ?_⟩
  have := h.2
  exact (Multiset.cons_inj_right x).mp this

theorem heapPop_spec {α : Type} [Inhabited α] (c : α → α → Nat → Ordering × Nat)
    (data : List α) (k : Nat) (hpos : 0 < data.length) :
    (heapPop c data k).1 = some (lget data 0) ∧
    (heapPop c data k).2.1.length = data.length - 1 ∧
    lget data 0 ::ₘ ((heapPop c data k).2.1 : Multiset α) = (data : Multiset α) := by
  have hlen0 : ¬ data.length = 0 := by omega
  have hdrop : data.dropLast.length = data.length - 1 := by
    simp
  by_cases h1 : data.dropLast.length = 0
  · have hone : data.length = 1 := by omega
    have hrw : heapPop c data k = (some (lget data (data.length - 1)), data.dropLast, k) := by
      simp only [heapPop, if_neg hlen0, if_pos h1]
    rw [hrw]
    have h01 : data.length - 1 = 0 := by omega
    refine ⟨by rw [h01], by rw [hdrop], ?_⟩
    have := ms_dropLast data hlen0
    rwa [h01] at this
  · have hrw : heapPop c data k = (some (lget data.dropLast 0),
        (siftDown c data.dropLast (lget data (data.length - 1)) k).1,
        (siftDown c data.dropLast (lget data (data.length - 1)) k).2) := by
      simp only [heapPop, if_neg hlen0, if_neg h1]
    have hd0 : lget data.dropLast 0 = lget data 0 := lget_dropLast data 0 (by omega)
    have hsd := siftDown_spec c data.dropLast (lget data (data.length - 1)) k (by omega)
    rw [hrw]
    refine ⟨by rw [hd0], by rw [hsd.1, hdrop], ?_⟩
    show lget data 0 ::ₘ _ = (data : Multiset α)
    rw [← hd0, hsd.2]
    exact ms_dropLast data hlen0

theorem mem_heapPush {α : Type} [Inhabited α] (c : α → α → Nat → Ordering × Nat)
    (data : List α) (x : α) (k : Nat) (l : α) (h : l ∈ (heapPush c data x k).1) :
    l = x ∨ l ∈ data := by
  have hm : l ∈ ((heapPush c data x k).1 : Multiset α) := by exact_mod_cast h
  rw [(heapPush_spec c data x k).2] at hm
  rcases Multiset.mem_cons.mp hm with h | h
  · exact Or.inl h
  · exact Or.inr (by exact_mod_cast h)

theorem heapPush_mem_self {α : Type} [Inhabited α] (c : α → α → Nat → Ordering × Nat)
    (data : List α) (x : α) (k : Nat) : x ∈ (heapPush c data x k).1 := by
  have : x ∈ ((heapPush c data x k).1 : Multiset α) := by
    rw [(heapPush_spec c data x k).2]; exact Multiset.mem_cons_self _ _
  exact_mod_cast this

theorem heapPush_mem_of {α : Type} [Inhabited α] (c : α → α → Nat → Ordering × Nat)
    (data : List α) (x : α) (k : Nat) (l : α) (h : l ∈ data) :
    l ∈ (heapPush c data x k).1 := by
  have : l ∈ ((heapPush c data x k).1 : Multiset α) := by
    rw [(heapPush_spec c data x k).2]
    exact Multiset.mem_cons_of_mem (by exact_mod_cast h)
  exact_mod_cast this

theorem mem_heapPop {α : Type} [Inhabited α] (c : α → α → Nat → Ordering × Nat)
    (data : List α) (k : Nat) (hpos : 0 < data.length) (l : α)
    (h : l ∈ (heapPop c data k).2.1) : l ∈ data := by
  have hm : l ∈ ((heapPop c data k).2.1 : Multiset α) := by exact_mod_cast h
  have : l ∈ lget data 0 ::ₘ ((heapPop c data k).2.1 : Multiset α) :=
    Multiset.mem_cons_of_mem hm
  rw [(heapPop_spec c data k hpos).2.2] at this
  exact_mod_cast this

theorem heapPop_mem_of {α : Type} [Inhabited α] (c : α → α → Nat → Ordering × Nat)
    (data : List α) (k : Nat) (hpos : 0 < data.length) (l : α)
    (h : l ∈ data) (hne : l ≠ lget data 0) : l ∈ (heapPop c data k).2.1 := by
  have hm : l ∈ lget data 0 ::ₘ ((heapPop c data k).2.1 : Multiset α) := by
    rw [(heapPop_spec c data k hpos).2.2]; exact_mod_cast h
  rcases Multiset.mem_cons.mp hm with h' | h'
  · exact absurd h' hne
  · exact_mod_cast h'

/-! ### The forced-include invariant of the heap

`Ord for Line` orders lines by *reversed* `position_index`, so the
binary max-heap keeps the line with the smallest key at the root and
`pop` removes a smallest-key line.  Lines with the sentinel key
`f64::INFINITY` (forced includes) are minimal in the heap order; we
track the invariant that a `posInf`-keyed line never sits above a
non-`posInf` line (every child of a `posInf`-keyed node is again
`posInf`-keyed).  Together with a count bound it implies that `pop`
never removes a forced include while a weighted candidate is present.
All lemmas here assume the keys involved are not NaN, so that every
comparison takes the deterministic `Some` branch of `Ord for Line`. -/

theorem goodAll_get (data : List Line) (hg : goodAll data) (i : Nat)
    (hi : i < data.length) : goodL (lget data i) :=
  hg _ (lget_mem _ _ hi)

theorem mem_lset {α : Type} (data : List α) (i : Nat) (v : α) (l : α)
    (h : l ∈ lset data i v) : l = v ∨ l ∈ data := by
  induction data generalizing i with
  | nil => simp [lset] at h
  | cons hd t ih =>
      cases i with
      | zero =>
          rcases List.mem_cons.mp h with h | h
          · exact Or.inl h
          · exact Or.inr (List.mem_cons_of_mem _ h)
      | succ n =>
          rcases List.mem_cons.mp h with h | h
          · exact Or.inr (h ▸ List.mem_cons_self _ _)
          · rcases ih n h with h' | h'
            · exact Or.inl h'
            · exact Or.inr (List.mem_cons_of_mem _ h')

theorem goodAll_lset (data : List Line) (i : Nat) (v : Line)
    (hg : goodAll data) (hv : goodL v) : goodAll (lset data i v) := by
  intro l hl
  rcases mem_lset data i v l hl with h | h
  · exact h ▸ hv
  · exact hg l h

theorem mem_index {α : Type} [Inhabited α] (l : List α) (a : α) (h : a ∈ l) :
    ∃ i, i < l.length ∧ lget l i = a := by
  induction l with
  | nil => simp at h
  | cons hd t ih =>
      rcases List.mem_cons.mp h with h | h
      · exact ⟨0, by simp, h.symm⟩
      · obtain ⟨i, hi, hv⟩ := ih h
        exact ⟨i + 1, by simpa using hi, hv⟩

theorem siftUp_AInv (d : Nat → F64) (x : Line) :
    ∀ (fuel pos : Nat) (data : List Line) (k : Nat),
    pos + 1 ≤ fuel → pos < data.length → goodL x → goodAll data →
    (∀ j, j < data.length → j ≠ 0 → (j - 1) / 2 ≠ pos → j ≠ pos →
        infL (lget data ((j - 1) / 2)) → infL (lget data j)) →
    (∀ j, j < data.length → j ≠ 0 → (j - 1) / 2 = pos →
        infL x → infL (lget data j)) →
    (∀ j, j < data.length → j ≠ 0 → (j - 1) / 2 = pos → pos ≠ 0 →
        infL (lget data ((pos - 1) / 2)) → infL (lget data j)) →
    AInv (siftUp (lineCmp d) data x pos k fuel).1 := by
  intro fuel
  induction fuel with
  | zero => intro pos data k hf _ _ _ _ _ _; omega
  | succ fuel ih =>
      intro pos data k hf hpos hgx hgall h1 h2 h3
      by_cases hp : pos = 0
      · subst hp
        have hrw : siftUp (lineCmp d) data x 0 k (fuel + 1) = (lset data 0 x, k) := by
          simp only [siftUp, if_pos rfl, if_true, if_false]
        rw [hrw]
        intro j hj hj0 hinf
        rw [lset_length] at hj
        rw [lget_lset_ne _ _ _ _ hj0]
        by_cases hp0 : (j - 1) / 2 = 0
        · rw [hp0, lget_lset_self _ _ _ hpos] at hinf
          exact h2 j hj hj0 hp0 hinf
        · rw [lget_lset_ne _ _ _ _ hp0] at hinf
          exact h1 j hj hj0 hp0 hj0 hinf
      · have hparlt : (pos - 1) / 2 < pos := by omega
        have hgpar : goodL (lget data ((pos - 1) / 2)) :=
          goodAll_get data hgall _ (by omega)
        obtain ⟨o, ho, hcmp⟩ := lineCmp_good d x (lget data ((pos - 1) / 2)) k hgx hgpar
        by_cases hgt : o = Ordering.gt
        · subst hgt
          have hrw : siftUp (lineCmp d) data x pos k (fuel + 1) =
              siftUp (lineCmp d) (lset data pos (lget data ((pos - 1) / 2))) x
                ((pos - 1) / 2) k fuel := by
            simp only [siftUp, if_neg hp, hcmp, if_true, if_false]
          rw [hrw]
          apply ih ((pos - 1) / 2) (lset data pos (lget data ((pos - 1) / 2))) k
            (by omega) (by rw [lset_length]; omega) hgx
            (goodAll_lset data pos _ hgall hgpar)
          · -- pairs not involving the new hole
            intro j hj hj0 hjp hjn hinf
            rw [lset_length] at hj
            by_cases hjpos : j = pos
            · exact absurd (show (j - 1) / 2 = (pos - 1) / 2 by omega) hjp
            · rw [lget_lset_ne _ _ _ _ hjpos]
              by_cases hpp : (j - 1) / 2 = pos
              · rw [hpp, lget_lset_self _ _ _ hpos] at hinf
                exact h3 j hj hj0 hpp hp hinf
              · rw [lget_lset_ne _ _ _ _ hpp] at hinf
                exact h1 j hj hj0 hpp hjpos hinf
          · -- children of the new hole, when the floating element is posInf
            intro j hj hj0 hjch hinfx
            exfalso
            have hx' : x.position_index = F64.posInf := hinfx
            rw [hx'] at ho
            exact not_gt_posInf _ ho
          · -- children of the new hole, under a posInf grandparent
            intro j hj hj0 hjch hppar hinf
            rw [lset_length] at hj
            have hglt : ((pos - 1) / 2 - 1) / 2 < pos := by omega
            rw [lget_lset_ne _ _ _ _ (by omega)] at hinf
            have hparinf : infL (lget data ((pos - 1) / 2)) :=
              h1 ((pos - 1) / 2) (by omega) hppar (by omega) (by omega) hinf
            by_cases hjpos : j = pos
            · rw [hjpos, lget_lset_self _ _ _ hpos]
              exact hparinf
            · rw [lget_lset_ne _ _ _ _ hjpos]
              exact h1 j hj hj0 (by omega) hjpos (by rw [hjch]; exact hparinf)
        · have hrw : siftUp (lineCmp d) data x pos k (fuel + 1) = (lset data pos x, k) := by
            simp only [siftUp, if_neg hp, hcmp, if_neg hgt]
          rw [hrw]
          intro j hj hj0 hinf
          rw [lset_length] at hj
          by_cases hjpos : j = pos
          · subst hjpos
            rw [lget_lset_ne _ _ _ _ (by omega : (j - 1) / 2 ≠ j)] at hinf
            rw [lget_lset_self _ _ _ hpos]
            have hinf' : (lget data ((j - 1) / 2)).position_index = F64.posInf := hinf
            have hxinf : x.position_index = F64.posInf := by
              apply posInf_not_gt x.position_index hgx
              intro hcon
              rw [hinf'] at ho
              rw [ho] at hcon
              exact hgt (Option.some.inj hcon)
            exact hxinf
          · rw [lget_lset_ne _ _ _ _ hjpos]
            by_cases hpp : (j - 1) / 2 = pos
            · rw [hpp, lget_lset_self _ _ _ hpos] at hinf
              exact h2 j hj hj0 hpp hinf
            · rw [lget_lset_ne _ _ _ _ hpp] at hinf
              exact h1 j hj hj0 hpp hjpos hinf

theorem siftDownLoop_step_aux (data : List Line) (pos chosen : Nat)
    (hpos : pos < data.length)
    (hchosen : chosen = 2 * pos + 1 ∨ chosen = 2 * pos + 1 + 1)
    (hlen : 2 * pos + 1 + 1 < data.length)
    (hsib : infL (lget data chosen) →
        ∀ t, (t = 2 * pos + 1 ∨ t = 2 * pos + 1 + 1) → infL (lget data t))
    (hD1 : ∀ j, j < data.length → j ≠ 0 → (j - 1) / 2 ≠ pos → j ≠ pos →
        infL (lget data ((j - 1) / 2)) → infL (lget data j))
    (hD2 : ∀ j, j < data.length → j ≠ 0 → (j - 1) / 2 = pos → pos ≠ 0 →
        infL (lget data ((pos - 1) / 2)) → infL (lget data j)) :
    (∀ j, j < data.length → j ≠ 0 → (j - 1) / 2 ≠ chosen → j ≠ chosen →
        infL (lget (lset data pos (lget data chosen)) ((j - 1) / 2)) →
        infL (lget (lset data pos (lget data chosen)) j)) ∧
    (∀ j, j < data.length → j ≠ 0 → (j - 1) / 2 = chosen → chosen ≠ 0 →
        infL (lget (lset data pos (lget data chosen)) ((chosen - 1) / 2)) →
        infL (lget (lset data pos (lget data chosen)) j)) := by
  constructor
  · intro j hj hj0 hjp hjn hinf
    by_cases hjpos : j = pos
    · subst hjpos
      rw [lget_lset_ne _ _ _ _ (by omega)] at hinf
      rw [lget_lset_self _ _ _ hpos]
      exact hD2 chosen (by omega) (by omega) (by omega) hj0 hinf
    · rw [lget_lset_ne _ _ _ _ hjpos]
      by_cases hpp : (j - 1) / 2 = pos
      · rw [hpp, lget_lset_self _ _ _ hpos] at hinf
        have hjsib : j = 2 * pos + 1 ∨ j = 2 * pos + 1 + 1 := by omega
        exact hsib hinf j hjsib
      · rw [lget_lset_ne _ _ _ _ hpp] at hinf
        exact hD1 j hj hj0 hpp hjpos hinf
  · intro j hj hj0 hjch hch0 hinf
    have hcp : (chosen - 1) / 2 = pos := by omega
    rw [hcp, lget_lset_self _ _ _ hpos] at hinf
    have hjne : j ≠ pos := by omega
    rw [lget_lset_ne _ _ _ _ hjne]
    exact hD1 j hj hj0 (by omega) hjne (by rw [hjch]; exact hinf)

theorem siftDownLoop_AInv (d : Nat → F64) :
    ∀ (fuel pos : Nat) (data : List Line) (k : Nat),
    data.length - pos ≤ fuel → pos < data.length → goodAll data →
    (∀ j, j < data.length → j ≠ 0 → (j - 1) / 2 ≠ pos → j ≠ pos →
        infL (lget data ((j - 1) / 2)) → infL (lget data j)) →
    (∀ j, j < data.length → j ≠ 0 → (j - 1) / 2 = pos → pos ≠ 0 →
        infL (lget data ((pos - 1) / 2)) → infL (lget data j)) →
    goodAll (siftDownLoop (lineCmp d) data pos k fuel).1 ∧
    (∀ j, j < data.length → j ≠ 0 →
        (j - 1) / 2 ≠ (siftDownLoop (lineCmp d) data pos k fuel).2.1 →
        j ≠ (siftDownLoop (lineCmp d) data pos k fuel).2.1 →
        infL (lget (siftDownLoop (lineCmp d) data pos k fuel).1 ((j - 1) / 2)) →
        infL (lget (siftDownLoop (lineCmp d) data pos k fuel).1 j)) := by
  intro fuel
  induction fuel with
  | zero => intro pos data k hf hpos _ _ _; omega
  | succ fuel ih =>
      intro pos data k hf hpos hgall hD1 hD2
      by_cases hc1 : 2 * pos + 1 + 1 < data.length
      · have hg1 : goodL (lget data (2 * pos + 1)) := goodAll_get _ hgall _ (by omega)
        have hg2 : goodL (lget data (2 * pos + 1 + 1)) := goodAll_get _ hgall _ (by omega)
        obtain ⟨o, ho, hcmp⟩ :=
          lineCmp_good d (lget data (2 * pos + 1)) (lget data (2 * pos + 1 + 1)) k hg1 hg2
        by_cases hgt : o = Ordering.gt
        · subst hgt
          have hrw : siftDownLoop (lineCmp d) data pos k (fuel + 1) =
              siftDownLoop (lineCmp d) (lset data pos (lget data (2 * pos + 1)))
                (2 * pos + 1) k fuel := by
            simp only [siftDownLoop, if_pos hc1, hcmp, if_true, if_false]
          have hsib : infL (lget data (2 * pos + 1)) →
              ∀ t, (t = 2 * pos + 1 ∨ t = 2 * pos + 1 + 1) → infL (lget data t) := by
            intro hcinf t ht
            exfalso
            have hc' : (lget data (2 * pos + 1)).position_index = F64.posInf := hcinf
            rw [hc'] at ho
            exact not_gt_posInf _ ho
          have haux := siftDownLoop_step_aux data pos (2 * pos + 1) hpos (Or.inl rfl)
            hc1 hsib hD1 hD2
          have hrec := ih (2 * pos + 1) (lset data pos (lget data (2 * pos + 1))) k
            (by rw [lset_length]; omega) (by rw [lset_length]; omega)
            (goodAll_lset data pos _ hgall hg1)
            (by rw [lset_length]; exact haux.1) (by rw [lset_length]; exact haux.2)
          rw [lset_length] at hrec
          rw [hrw]
          exact hrec
        · have hrw : siftDownLoop (lineCmp d) data pos k (fuel + 1) =
              siftDownLoop (lineCmp d) (lset data pos (lget data (2 * pos + 1 + 1)))
                (2 * pos + 1 + 1) k fuel := by
            simp only [siftDownLoop, if_pos hc1, hcmp, if_neg hgt]
          have hsib : infL (lget data (2 * pos + 1 + 1)) →
              ∀ t, (t = 2 * pos + 1 ∨ t = 2 * pos + 1 + 1) → infL (lget data t) := by
            intro hcinf t ht
            have hc' : (lget data (2 * pos + 1 + 1)).position_index = F64.posInf := hcinf
            rw [hc'] at ho
            have hsibinf : (lget data (2 * pos + 1)).position_index = F64.posInf := by
              apply posInf_not_gt _ hg1
              intro hcon
              rw [ho] at hcon
              exact hgt (Option.some.inj hcon)
            rcases ht with ht | ht
            · rw [ht]; exact hsibinf
            · rw [ht]; exact hc'
          have haux := siftDownLoop_step_aux data pos (2 * pos + 1 + 1) hpos (Or.inr rfl)
            hc1 hsib hD1 hD2
          have hrec := ih (2 * pos + 1 + 1) (lset data pos (lget data (2 * pos + 1 + 1))) k
            (by rw [lset_length]; omega) (by rw [lset_length]; omega)
            (goodAll_lset data pos _ hgall hg2)
            (by rw [lset_length]; exact haux.1) (by rw [lset_length]; exact haux.2)
          rw [lset_length] at hrec
          rw [hrw]
          exact hrec
      · by_cases hc2 : 2 * pos + 1 + 1 = data.length
        · have hrw : siftDownLoop (lineCmp d) data pos k (fuel + 1) =
              (lset data pos (lget data (2 * pos + 1)), 2 * pos + 1, k) := by
            simp only [siftDownLoop, if_neg hc1, if_pos hc2]
          rw [hrw]
          constructor
          · exact goodAll_lset data pos _ hgall (goodAll_get _ hgall _ (by omega))
          · intro j hj hj0 hjp hjn hinf
            have hjp' : (j - 1) / 2 ≠ 2 * pos + 1 := hjp
            have hjn' : j ≠ 2 * pos + 1 := hjn
            by_cases hjpos : j = pos
            · subst hjpos
              rw [lget_lset_ne _ _ _ _ (by omega)] at hinf
              rw [lget_lset_self _ _ _ hpos]
              exact hD2 (2 * j + 1) (by omega) (by omega) (by omega) hj0 hinf
            · rw [lget_lset_ne _ _ _ _ hjpos]
              by_cases hpp : (j - 1) / 2 = pos
              · exfalso; omega
              · rw [lget_lset_ne _ _ _ _ hpp] at hinf
                exact hD1 j hj hj0 hpp hjpos hinf
        · have hrw : siftDownLoop (lineCmp d) data pos k (fuel + 1) = (data, pos, k) := by
            simp only [siftDownLoop, if_neg hc1, if_neg hc2]
          rw [hrw]
          exact ⟨hgall, hD1⟩

theorem heapPush_AInv (d : Nat → F64) (data : List Line) (x : Line) (k : Nat)
    (hgall : goodAll data) (hgx : goodL x) (hA : AInv data) :
    AInv (heapPush (lineCmp d) data x k).1 := by
  apply siftUp_AInv d x (data.length + 1) data.length (data.concat x) k (by omega)
    (by simp [List.length_concat]) hgx
  · intro l hl
    rw [List.concat_eq_append, List.mem_append] at hl
    rcases hl with h | h
    · exact hgall l h
    · simp only [List.mem_singleton] at h
      exact h ▸ hgx
  · intro j hj hj0 hjp hjn hinf
    rw [List.length_concat] at hj
    have hjlt : j < data.length := by omega
    have hplt : (j - 1) / 2 < data.length := by omega
    rw [lget_concat_lt _ _ _ hjlt]
    rw [lget_concat_lt _ _ _ hplt] at hinf
    exact hA j hjlt hj0 hinf
  · intro j hj hj0 hjch _
    exfalso
    rw [List.length_concat] at hj
    omega
  · intro j hj hj0 hjch _ _
    exfalso
    rw [List.length_concat] at hj
    omega

theorem goodAll_heapPush (c : Line → Line → Nat → Ordering × Nat)
    (data : List Line) (x : Line) (k : Nat)
    (hgall : goodAll data) (hgx : goodL x) : goodAll (heapPush c data x k).1 := by
  intro l hl
  rcases mem_heapPush c data x k l hl with h | h
  · exact h ▸ hgx
  · exact hgall l h

theorem goodAll_heapPop (c : Line → Line → Nat → Ordering × Nat)
    (data : List Line) (k : Nat) (hgall : goodAll data) :
    goodAll (heapPop c data k).2.1 := by
  by_cases hpos : 0 < data.length
  · intro l hl
    exact hgall l (mem_heapPop c data k hpos l hl)
  · have h0 : data.length = 0 := by omega
    have hrw : heapPop c data k = (none, data, k) := by
      simp only [heapPop, if_pos h0]
    rw [hrw]
    exact hgall

theorem heapPop_AInv (d : Nat → F64) (data : List Line) (k : Nat)
    (hgall : goodAll data) (hA : AInv data) :
    AInv (heapPop (lineCmp d) data k).2.1 := by
  by_cases h0 : data.length = 0
  · have hrw : heapPop (lineCmp d) data k = (none, data, k) := by
      simp only [heapPop, if_pos h0]
    rw [hrw]
    exact hA
  · by_cases h1 : data.dropLast.length = 0
    · have hrw : heapPop (lineCmp d) data k =
          (some (lget data (data.length - 1)), data.dropLast, k) := by
        simp only [heapPop, if_neg h0, if_pos h1]
      rw [hrw]
      intro j hj hj0 hinf
      rw [h1] at hj
      omega
    · have hrw : heapPop (lineCmp d) data k = (some (lget data.dropLast 0),
          (siftDown (lineCmp d) data.dropLast (lget data (data.length - 1)) k).1,
          (siftDown (lineCmp d) data.dropLast (lget data (data.length - 1)) k).2) := by
        simp only [heapPop, if_neg h0, if_neg h1]
      rw [hrw]
      have hd1len : data.dropLast.length = data.length - 1 := by simp
      have hgall1 : goodAll data.dropLast := fun l hl =>
        hgall l (List.dropLast_subset data hl)
      have hgitem : goodL (lget data (data.length - 1)) :=
        hgall _ (lget_mem _ _ (by omega))
      have hD1 : ∀ j, j < data.dropLast.length → j ≠ 0 → (j - 1) / 2 ≠ 0 → j ≠ 0 →
          infL (lget data.dropLast ((j - 1) / 2)) → infL (lget data.dropLast j) := by
        intro j hj hj0 _ _ hinf
        rw [lget_dropLast data j (by omega)]
        rw [lget_dropLast data ((j - 1) / 2) (by omega)] at hinf
        exact hA j (by omega) hj0 hinf
      have hD2 : ∀ j, j < data.dropLast.length → j ≠ 0 → (j - 1) / 2 = 0 → (0 : Nat) ≠ 0 →
          infL (lget data.dropLast ((0 - 1) / 2)) → infL (lget data.dropLast j) :=
        fun j _ _ _ h00 => absurd rfl h00
      have hsdl := siftDownLoop_AInv d data.dropLast.length 0 data.dropLast k
        (by omega) (by omega) hgall1 hD1 hD2
      have hsp := siftDownLoop_spec (lineCmp d) data.dropLast.length 0 data.dropLast k
        (by omega) (by omega)
      show AInv (siftUp (lineCmp d)
        (siftDownLoop (lineCmp d) data.dropLast 0 k data.dropLast.length).1
        (lget data (data.length - 1))
        (siftDownLoop (lineCmp d) data.dropLast 0 k data.dropLast.length).2.1
        (siftDownLoop (lineCmp d) data.dropLast 0 k data.dropLast.length).2.2
        ((siftDownLoop (lineCmp d) data.dropLast 0 k data.dropLast.length).2.1 + 1)).1
      apply siftUp_AInv d (lget data (data.length - 1))
        ((siftDownLoop (lineCmp d) data.dropLast 0 k data.dropLast.length).2.1 + 1)
        (siftDownLoop (lineCmp d) data.dropLast 0 k data.dropLast.length).2.1
        (siftDownLoop (lineCmp d) data.dropLast 0 k data.dropLast.length).1
        (siftDownLoop (lineCmp d) data.dropLast 0 k data.dropLast.length).2.2
        (by omega) (by rw [hsp.1]; exact hsp.2.1) hgitem hsdl.1
      · intro j hj hj0 hjp hjn hinf
        rw [hsp.1] at hj
        exact hsdl.2 j hj hj0 hjp hjn hinf
      · intro j hj hj0 hjch _
        exfalso
        rw [hsp.1] at hj
        omega
      · intro j hj hj0 hjch _ _
        exfalso
        rw [hsp.1] at hj
        omega

theorem AInv_all_inf (data : List Line) (hA : AInv data) (h0 : infL (lget data 0)) :
    ∀ i, i < data.length → infL (lget data i) := by
  intro i
  induction i using Nat.strong_induction_on with
  | _ i ih =>
      intro hi
      by_cases hi0 : i = 0
      · rw [hi0]; exact h0
      · exact hA i hi hi0 (ih ((i - 1) / 2) (by omega) (by omega))

theorem countInfM_cons (x : Line) (s : Multiset Line) :
    countInfM (x ::ₘ s) = countInfM s + if infL x then 1 else 0 :=
  Multiset.countP_cons infL x s

theorem heapPop_noninf (d : Nat → F64) (data : List Line) (k : Nat)
    (hpos : 0 < data.length) (hA : AInv data)
    (hcnt : countInfM (data : Multiset Line) < data.length) :
    (heapPop (lineCmp d) data k).1 = some (lget data 0) ∧ ¬ infL (lget data 0) := by
  refine ⟨(heapPop_spec _ data k hpos).1, ?_⟩
  intro hinf
  have hall := AInv_all_inf data hA hinf
  have hcard : countInfM (data : Multiset Line) = data.length := by
    have hmem : ∀ l ∈ (data : Multiset Line), infL l := by
      intro l hl
      obtain ⟨i, hi, hv⟩ := mem_index data l (by exact_mod_cast hl)
      exact hv ▸ hall i hi
    rw [countInfM, Multiset.countP_eq_card.mpr hmem, Multiset.coe_card]
  omega

/-! ### Analysis of one loop iteration -/

theorem stepRecord_analysis (ctx : Ctx) (lg : ℚ → F64) (draws : Nat → F64)
    (r : Record) (s s₁ : LoopState)
    (h : stepRecord ctx lg draws r s = .ok s₁) :
    (offered ctx.idc ctx.exc r = false ∧ s₁ = s) ∨
    (∃ f, r.get ctx.idc = some f ∧ ctx.exc.contains f.raw = false ∧
      offered ctx.idc ctx.exc r = true ∧
      f64IsZero (stepLine ctx lg f r (draws s.rng) s.i).position_index = false ∧
      ((¬ ctx.K < s.heap.length + 1 ∧
        s₁ = { heap := (heapPush (lineCmp draws) s.heap
                  (stepLine ctx lg f r (draws s.rng) s.i) (s.rng + 1)).1,
               i := s.i + 1,
               rng := (heapPush (lineCmp draws) s.heap
                  (stepLine ctx lg f r (draws s.rng) s.i) (s.rng + 1)).2 }) ∨
       (ctx.K < s.heap.length + 1 ∧
        s₁ = { heap := (heapPop (lineCmp draws)
                  (heapPush (lineCmp draws) s.heap
                    (stepLine ctx lg f r (draws s.rng) s.i) (s.rng + 1)).1
                  (heapPush (lineCmp draws) s.heap
                    (stepLine ctx lg f r (draws s.rng) s.i) (s.rng + 1)).2).2.1,
               i := s.i + 1,
               rng := (heapPop (lineCmp draws)
                  (heapPush (lineCmp draws) s.heap
                    (stepLine ctx lg f r (draws s.rng) s.i) (s.rng + 1)).1
                  (heapPush (lineCmp draws) s.heap
                    (stepLine ctx lg f r (draws s.rng) s.i) (s.rng + 1)).2).2.2 }))) := by
  cases hid : r.get ctx.idc with
  | none =>
      simp [stepRecord, hid] at h
  | some f =>
      by_cases hexc : ctx.exc.contains f.raw = true
      · have hrw : stepRecord ctx lg draws r s = .ok s := by
          simp only [stepRecord, hid]
          exact if_pos hexc
        rw [hrw] at h
        refine Or.inl ⟨?_, (Except.ok.inj h).symm⟩
        simp only [offered, hid, hexc]
        rfl
      · have hexc' : ctx.exc.contains f.raw = false := Bool.eq_false_iff.mpr hexc
        by_cases hz : f64IsZero (stepLine ctx lg f r (draws s.rng) s.i).position_index = true
        · have hrw : stepRecord ctx lg draws r s = .error .zeroKeyPanic := by
            simp only [stepRecord, hid]
            exact (if_neg hexc).trans (if_pos hz)
          rw [hrw] at h
          exact absurd h (by simp)
        · have hlen1 := (heapPush_spec (lineCmp draws) s.heap
            (stepLine ctx lg f r (draws s.rng) s.i) (s.rng + 1)).1
          have hoff : offered ctx.idc ctx.exc r = true := by
            simp only [offered, hid, hexc']
            rfl
          have hzf : f64IsZero (stepLine ctx lg f r (draws s.rng) s.i).position_index = false :=
            Bool.eq_false_iff.mpr hz
          by_cases hpop : ctx.K <
              (heapPush (lineCmp draws) s.heap
                (stepLine ctx lg f r (draws s.rng) s.i) (s.rng + 1)).1.length
          · have hrw : stepRecord ctx lg draws r s = .ok
                { heap := (heapPop (lineCmp draws)
                    (heapPush (lineCmp draws) s.heap
                      (stepLine ctx lg f r (draws s.rng) s.i) (s.rng + 1)).1
                    (heapPush (lineCmp draws) s.heap
                      (stepLine ctx lg f r (draws s.rng) s.i) (s.rng + 1)).2).2.1,
                  i := s.i + 1,
                  rng := (heapPop (lineCmp draws)
                    (heapPush (lineCmp draws) s.heap
                      (stepLine ctx lg f r (draws s.rng) s.i) (s.rng + 1)).1
                    (heapPush (lineCmp draws) s.heap
                      (stepLine ctx lg f r (draws s.rng) s.i) (s.rng + 1)).2).2.2 } := by
              simp only [stepRecord, hid]
              exact ((if_neg hexc).trans (if_neg hz)).trans (if_pos hpop)
            rw [hrw] at h
            exact Or.inr ⟨f, rfl, hexc', hoff, hzf,
              Or.inr ⟨by rw [← hlen1]; exact hpop, (Except.ok.inj h).symm⟩⟩
          · have hrw : stepRecord ctx lg draws r s = .ok
                { heap := (heapPush (lineCmp draws) s.heap
                    (stepLine ctx lg f r (draws s.rng) s.i) (s.rng + 1)).1,
                  i := s.i + 1,
                  rng := (heapPush (lineCmp draws) s.heap
                    (stepLine ctx lg f r (draws s.rng) s.i) (s.rng + 1)).2 } := by
              simp only [stepRecord, hid]
              exact ((if_neg hexc).trans (if_neg hz)).trans (if_neg hpop)
            rw [hrw] at h
            exact Or.inr ⟨f, rfl, hexc', hoff, hzf,
              Or.inl ⟨by rw [← hlen1]; exact hpop, (Except.ok.inj h).symm⟩⟩

/-- Size of the heap along the loop: exactly `min K` of the number of
offered records (the transient `K+1` after a push is immediately cut
back by the pop). -/
theorem runLoop_length (ctx : Ctx) (lg : ℚ → F64) (draws : Nat → F64) :
    ∀ (records : List Record) (s s' : LoopState) (m : Nat),
    s.heap.length = min ctx.K m →
    runLoop ctx lg draws records s = .ok s' →
    s'.heap.length = min ctx.K (m + records.countP (offered ctx.idc ctx.exc)) := by
  intro records
  induction records with
  | nil =>
      intro s s' m hm hrun
      simp only [runLoop] at hrun
      obtain rfl : s = s' := Except.ok.inj hrun
      simpa using hm
  | cons r rs ih =>
      intro s s' m hm hrun
      cases hstep : stepRecord ctx lg draws r s with
      | error e =>
          rw [runLoop, hstep] at hrun
          exact absurd hrun (by simp)
      | ok s₁ =>
          rw [runLoop, hstep] at hrun
          rcases stepRecord_analysis ctx lg draws r s s₁ hstep with
            ⟨hoff, heq⟩ | ⟨f, hid, hexc, hoff, hz, hcase⟩
          · rw [heq] at hrun
            rw [List.countP_cons_of_neg _ _ (fun hc => by rw [hoff] at hc; cases hc)]
            exact ih s s' m hm hrun
          · rw [List.countP_cons_of_pos _ _ hoff]
            rcases hcase with ⟨hnl, heq⟩ | ⟨hl, heq⟩
            · rw [heq] at hrun
              have hlen1 := (heapPush_spec (lineCmp draws) s.heap
                (stepLine ctx lg f r (draws s.rng) s.i) (s.rng + 1)).1
              have hm1 : (heapPush (lineCmp draws) s.heap
                  (stepLine ctx lg f r (draws s.rng) s.i) (s.rng + 1)).1.length =
                  min ctx.K (m + 1) := by
                rw [hlen1]; omega
              have := ih _ s' (m + 1) hm1 hrun
              rw [this]
              omega
            · rw [heq] at hrun
              have hlen1 := (heapPush_spec (lineCmp draws) s.heap
                (stepLine ctx lg f r (draws s.rng) s.i) (s.rng + 1)).1
              have hlen2 := (heapPop_spec (lineCmp draws)
                (heapPush (lineCmp draws) s.heap
                  (stepLine ctx lg f r (draws s.rng) s.i) (s.rng + 1)).1
                (heapPush (lineCmp draws) s.heap
                  (stepLine ctx lg f r (draws s.rng) s.i) (s.rng + 1)).2
                (by omega)).2.1
              have hm1 : (heapPop (lineCmp draws)
                  (heapPush (lineCmp draws) s.heap
                    (stepLine ctx lg f r (draws s.rng) s.i) (s.rng + 1)).1
                  (heapPush (lineCmp draws) s.heap
                    (stepLine ctx lg f r (draws s.rng) s.i) (s.rng + 1)).2).2.1.length =
                  min ctx.K (m + 1) := by
                rw [hlen2, hlen1]; omega
              have := ih _ s' (m + 1) hm1 hrun
              rw [this]
              omega

/-- Membership preservation along the loop: every line of the final heap
either was present initially or is the line pushed for some record. -/
theorem runLoop_mem (ctx : Ctx) (lg : ℚ → F64) (draws : Nat → F64) (P : Line → Prop)
    (hP : ∀ r f u i, r.get ctx.idc = some f → ctx.exc.contains f.raw = false →
      P (stepLine ctx lg f r u i)) :
    ∀ (records : List Record) (s s' : LoopState),
    (∀ l ∈ s.heap, P l) → runLoop ctx lg draws records s = .ok s' →
    ∀ l ∈ s'.heap, P l := by
  intro records
  induction records with
  | nil =>
      intro s s' hs hrun
      simp only [runLoop] at hrun
      obtain rfl : s = s' := Except.ok.inj hrun
      exact hs
  | cons r rs ih =>
      intro s s' hs hrun
      cases hstep : stepRecord ctx lg draws r s with
      | error e =>
          rw [runLoop, hstep] at hrun
          exact absurd hrun (by simp)
      | ok s₁ =>
          rw [runLoop, hstep] at hrun
          rcases stepRecord_analysis ctx lg draws r s s₁ hstep with
            ⟨hoff, heq⟩ | ⟨f, hid, hexc, hoff, hz, hcase⟩
          · rw [heq] at hrun
            exact ih s s' hs hrun
          · have hpush : ∀ l ∈ (heapPush (lineCmp draws) s.heap
                (stepLine ctx lg f r (draws s.rng) s.i) (s.rng + 1)).1, P l := by
              intro l hl
              rcases mem_heapPush _ _ _ _ l hl with h | h
              · exact h ▸ hP r f (draws s.rng) s.i hid hexc
              · exact hs l h
            rcases hcase with ⟨hnl, heq⟩ | ⟨hl, heq⟩
            · rw [heq] at hrun
              exact ih _ s' hpush hrun
            · rw [heq] at hrun
              have hlen1 := (heapPush_spec (lineCmp draws) s.heap
                (stepLine ctx lg f r (draws s.rng) s.i) (s.rng + 1)).1
              have hpop : ∀ l ∈ (heapPop (lineCmp draws)
                  (heapPush (lineCmp draws) s.heap
                    (stepLine ctx lg f r (draws s.rng) s.i) (s.rng + 1)).1
                  (heapPush (lineCmp draws) s.heap
                    (stepLine ctx lg f r (draws s.rng) s.i) (s.rng + 1)).2).2.1, P l := by
                intro l hl
                exact hpush l (mem_heapPop _ _ _ (by omega) l hl)
              exact ih _ s' hpop hrun

/-! ### Evaluation of the sampling key for well-behaved weights -/

theorem f64Div_one_fin (qw : ℚ) (h : 0 < qw) :
    f64Div (F64.fin 1) (F64.fin qw) = F64.fin (1 / qw) := by
  simp only [f64Div]
  rw [if_neg h.ne', if_neg one_ne_zero]

theorem f64Mul_pos_negInf (q : ℚ) (h : 0 < q) :
    f64Mul (F64.fin q) F64.negInf = F64.negInf := by
  simp only [f64Mul]
  rw [if_neg h.ne', if_neg (not_lt.mpr h.le)]

theorem f64Mul_fin_fin_ne (a b : ℚ) (ha : a ≠ 0) (hb : b ≠ 0) :
    f64Mul (F64.fin a) (F64.fin b) = F64.fin (a * b) := by
  simp only [f64Mul]
  rw [if_neg (mul_ne_zero ha hb)]

theorem f64Log2_fin_zero (lg : ℚ → F64) : f64Log2 lg (F64.fin 0) = F64.negInf := by
  simp [f64Log2]

theorem f64Log2_fin_pos (lg : ℚ → F64) (q : ℚ) (h : 0 < q) :
    f64Log2 lg (F64.fin q) = lg q := by
  simp only [f64Log2]
  rw [if_neg h.ne', if_neg (not_lt.mpr h.le)]

/-- The key `(1/w) * log2 u` of a `Normal` record with a positive finite
weight and a draw `u ∈ [0,1)` whose `log2` is a negative finite float:
it is either `-inf` (when `u = 0`) or a negative finite value. -/
theorem normal_key_cases (lg : ℚ → F64) (qw qu : ℚ) (hqw : 0 < qw)
    (hqu0 : 0 ≤ qu) (hqu1 : qu < 1)
    (hLG : ∀ q, 0 < q → q < 1 → ∃ t, lg q = F64.fin t ∧ t < 0) :
    f64Mul (f64Div (F64.fin 1) (F64.fin qw)) (f64Log2 lg (F64.fin qu)) = F64.negInf ∨
    ∃ t, t < 0 ∧
      f64Mul (f64Div (F64.fin 1) (F64.fin qw)) (f64Log2 lg (F64.fin qu)) = F64.fin t := by
  rw [f64Div_one_fin qw hqw]
  by_cases hq0 : qu = 0
  · subst hq0
    rw [f64Log2_fin_zero, f64Mul_pos_negInf _ (by positivity)]
    exact Or.inl rfl
  · have hqu : 0 < qu := lt_of_le_of_ne hqu0 (Ne.symm hq0)
    obtain ⟨t, hlgq, ht⟩ := hLG qu hqu hqu1
    rw [f64Log2_fin_pos lg qu hqu, hlgq, f64Mul_fin_fin_ne _ _ (by positivity) ht.ne]
    exact Or.inr ⟨1 / qw * t, mul_neg_of_pos_of_neg (by positivity) ht, rfl⟩

theorem forced_offered (idc : Nat) (inc exc : List String) (r : Record)
    (h : forced idc inc exc r = true) : offered idc exc r = true := by
  unfold forced at h
  unfold offered
  cases hg : r.get idc with
  | none => rw [hg] at h; cases h
  | some f =>
      rw [hg] at h
      exact (Bool.and_eq_true_iff.mp h).2

/-- Forced-include preservation through the loop: under comparable keys
(every draw in `[0,1)`, `log2` negative finite on `(0,1)`, positive
finite weights for all `Normal` records) and a heap whose sentinel-key
count plus the number of remaining forced records stays within `K`,
every sentinel-keyed line survives to the end of the stream and every
forced record contributes a retained sentinel-keyed line. -/
theorem runLoop_forced (ctx : Ctx) (lg : ℚ → F64) (draws : Nat → F64)
    (hU : ∀ n, ∃ q, draws n = F64.fin q ∧ 0 ≤ q ∧ q < 1)
    (hLG : ∀ q, 0 < q → q < 1 → ∃ t, lg q = F64.fin t ∧ t < 0) :
    ∀ (records : List Record) (s s' : LoopState),
    (∀ r ∈ records, ∀ f, r.get ctx.idc = some f → ctx.exc.contains f.raw = false →
      ctx.inc.contains f.raw = false →
      ∃ qw, get_weight ctx.wcol r = F64.fin qw ∧ 0 < qw) →
    goodAll s.heap → AInv s.heap →
    countInfM (s.heap : Multiset Line) +
      records.countP (forced ctx.idc ctx.inc ctx.exc) ≤ ctx.K →
    runLoop ctx lg draws records s = .ok s' →
    (∀ l ∈ s.heap, infL l → l ∈ s'.heap) ∧
    (∀ r ∈ records, forced ctx.idc ctx.inc ctx.exc r = true →
      ∃ l ∈ s'.heap, l.record = r ∧ infL l) := by
  intro records
  induction records with
  | nil =>
      intro s s' hW hg hA hcnt hrun
      simp only [runLoop] at hrun
      obtain rfl : s = s' := Except.ok.inj hrun
      exact ⟨fun l hl _ => hl, fun r hr => absurd hr (by simp)⟩
  | cons r rs ih =>
      intro s s' hW hg hA hcnt hrun
      cases hstep : stepRecord ctx lg draws r s with
      | error e =>
          rw [runLoop, hstep] at hrun
          exact absurd hrun (by simp)
      | ok s₁ =>
          rw [runLoop, hstep] at hrun
          have hWr : ∀ r' ∈ rs, ∀ f, r'.get ctx.idc = some f →
              ctx.exc.contains f.raw = false → ctx.inc.contains f.raw = false →
              ∃ qw, get_weight ctx.wcol r' = F64.fin qw ∧ 0 < qw :=
            fun r' hr' => hW r' (List.mem_cons_of_mem _ hr')
          rcases stepRecord_analysis ctx lg draws r s s₁ hstep with
            ⟨hoff, heq⟩ | ⟨f, hid, hexc, hoff, hz, hcase⟩
          · -- excluded record: state unchanged
            rw [heq] at hrun
            have hfr : forced ctx.idc ctx.inc ctx.exc r = false := by
              by_cases hb : forced ctx.idc ctx.inc ctx.exc r = true
              · rw [forced_offered _ _ _ _ hb] at hoff; cases hoff
              · exact Bool.eq_false_iff.mpr hb
            have hcnt' : countInfM (s.heap : Multiset Line) +
                rs.countP (forced ctx.idc ctx.inc ctx.exc) ≤ ctx.K := by
              rw [List.countP_cons_of_neg _ _ (fun hc => by rw [hfr] at hc; cases hc)] at hcnt
              exact hcnt
            obtain ⟨hpres, hconc⟩ := ih s s' hWr hg hA hcnt' hrun
            refine ⟨hpres, ?_⟩
            intro r' hr' hfr'
            rcases List.mem_cons.mp hr' with rfl | hr'
            · rw [hfr'] at hfr; cases hfr
            · exact hconc r' hr' hfr'
          · -- offered record: a line is pushed (and possibly one popped)
            obtain ⟨qu, hqu, hqu0, hqu1⟩ := hU s.rng
            have hms1 := (heapPush_spec (lineCmp draws) s.heap
              (stepLine ctx lg f r (draws s.rng) s.i) (s.rng + 1)).2
            have hlen1 := (heapPush_spec (lineCmp draws) s.heap
              (stepLine ctx lg f r (draws s.rng) s.i) (s.rng + 1)).1
            by_cases hin : ctx.inc.contains f.raw = true
            · -- forced include: sentinel key
              have hxinf : infL (stepLine ctx lg f r (draws s.rng) s.i) := by
                show (stepLine ctx lg f r (draws s.rng) s.i).position_index = F64.posInf
                exact if_pos hin
              have hxgood : goodL (stepLine ctx lg f r (draws s.rng) s.i) := by
                show (stepLine ctx lg f r (draws s.rng) s.i).position_index ≠ F64.nan
                have he : (stepLine ctx lg f r (draws s.rng) s.i).position_index = F64.posInf :=
                  if_pos hin
                rw [he]
                exact fun hc => F64.noConfusion hc
              have hfr : forced ctx.idc ctx.inc ctx.exc r = true := by
                unfold forced
                rw [hid]
                show (ctx.inc.contains f.raw && !(ctx.exc.contains f.raw)) = true
                rw [hin, hexc]
                rfl
              have hcnt1 : countInfM (s.heap : Multiset Line) + 1 +
                  rs.countP (forced ctx.idc ctx.inc ctx.exc) ≤ ctx.K := by
                rw [List.countP_cons_of_pos _ _ hfr] at hcnt
                omega
              have hcgood := goodAll_heapPush (lineCmp draws) s.heap _ (s.rng + 1) hg hxgood
              have hcA := heapPush_AInv draws s.heap _ (s.rng + 1) hg hxgood hA
              have hcm : countInfM ((heapPush (lineCmp draws) s.heap
                  (stepLine ctx lg f r (draws s.rng) s.i) (s.rng + 1)).1 : Multiset Line) =
                  countInfM (s.heap : Multiset Line) + 1 := by
                rw [hms1, countInfM_cons, if_pos hxinf]
              rcases hcase with ⟨hnl, heq⟩ | ⟨hl, heq⟩
              · rw [heq] at hrun
                obtain ⟨hpres, hconc⟩ := ih _ s' hWr hcgood hcA (by rw [hcm]; omega) hrun
                refine ⟨?_, ?_⟩
                · intro l hl' hinfl
                  exact hpres l (heapPush_mem_of _ _ _ _ l hl') hinfl
                · intro r' hr' hfr'
                  rcases List.mem_cons.mp hr' with rfl | hr'
                  · refine ⟨stepLine ctx lg f r' (draws s.rng) s.i,
                      hpres _ (heapPush_mem_self _ _ _ _) hxinf, rfl, hxinf⟩
                  · exact hconc r' hr' hfr'
              · rw [heq] at hrun
                have hpos1 : 0 < (heapPush (lineCmp draws) s.heap
                    (stepLine ctx lg f r (draws s.rng) s.i) (s.rng + 1)).1.length := by
                  omega
                have hcntlt : countInfM ((heapPush (lineCmp draws) s.heap
                    (stepLine ctx lg f r (draws s.rng) s.i) (s.rng + 1)).1 : Multiset Line) <
                    (heapPush (lineCmp draws) s.heap
                      (stepLine ctx lg f r (draws s.rng) s.i) (s.rng + 1)).1.length := by
                  rw [hcm, hlen1]
                  omega
                obtain ⟨hppd, hninf⟩ := heapPop_noninf draws
                  (heapPush (lineCmp draws) s.heap
                    (stepLine ctx lg f r (draws s.rng) s.i) (s.rng + 1)).1
                  (heapPush (lineCmp draws) s.heap
                    (stepLine ctx lg f r (draws s.rng) s.i) (s.rng + 1)).2 hpos1 hcA hcntlt
                have hpopms := (heapPop_spec (lineCmp draws) _
                  (heapPush (lineCmp draws) s.heap
                    (stepLine ctx lg f r (draws s.rng) s.i) (s.rng + 1)).2 hpos1).2.2
                have hpopgood := goodAll_heapPop (lineCmp draws) _
                  (heapPush (lineCmp draws) s.heap
                    (stepLine ctx lg f r (draws s.rng) s.i) (s.rng + 1)).2 hcgood
                have hpopA := heapPop_AInv draws _
                  (heapPush (lineCmp draws) s.heap
                    (stepLine ctx lg f r (draws s.rng) s.i) (s.rng + 1)).2 hcgood hcA
                have hpopm : countInfM (((heapPop (lineCmp draws)
                    (heapPush (lineCmp draws) s.heap
                      (stepLine ctx lg f r (draws s.rng) s.i) (s.rng + 1)).1
                    (heapPush (lineCmp draws) s.heap
                      (stepLine ctx lg f r (draws s.rng) s.i) (s.rng + 1)).2).2.1 :
                      List Line) : Multiset Line) =
                    countInfM (s.heap : Multiset Line) + 1 := by
                  have := congrArg countInfM hpopms
                  rw [countInfM_cons, if_neg hninf] at this
                  omega
                have hmempop : ∀ l ∈ (heapPush (lineCmp draws) s.heap
                    (stepLine ctx lg f r (draws s.rng) s.i) (s.rng + 1)).1, infL l →
                    l ∈ (heapPop (lineCmp draws)
                      (heapPush (lineCmp draws) s.heap
                        (stepLine ctx lg f r (draws s.rng) s.i) (s.rng + 1)).1
                      (heapPush (lineCmp draws) s.heap
                        (stepLine ctx lg f r (draws s.rng) s.i) (s.rng + 1)).2).2.1 := by
                  intro l hl' hinfl
                  exact heapPop_mem_of _ _ _ hpos1 l hl'
                    (fun hc => hninf (hc ▸ hinfl))
                obtain ⟨hpres, hconc⟩ := ih _ s' hWr hpopgood hpopA
                  (by rw [hpopm]; omega) hrun
                refine ⟨?_, ?_⟩
                · intro l hl' hinfl
                  exact hpres l (hmempop l (heapPush_mem_of _ _ _ _ l hl') hinfl) hinfl
                · intro r' hr' hfr'
                  rcases List.mem_cons.mp hr' with rfl | hr'
                  · refine ⟨stepLine ctx lg f r' (draws s.rng) s.i,
                      hpres _ (hmempop _ (heapPush_mem_self _ _ _ _) hxinf) hxinf, rfl, hxinf⟩
                  · exact hconc r' hr' hfr'
            · -- Normal record: finite negative (or -inf) key
              have hin' : ctx.inc.contains f.raw = false := Bool.eq_false_iff.mpr hin
              obtain ⟨qw, hqw, hqwpos⟩ :=
                hW r (List.mem_cons_self _ _) f hid hexc hin'
              have hkey : (stepLine ctx lg f r (draws s.rng) s.i).position_index =
                  f64Mul (f64Div (F64.fin 1) (F64.fin qw)) (f64Log2 lg (F64.fin qu)) := by
                simp only [stepLine, hin', hqw, hqu]
                rw [if_neg (by simp)]
              have hcases := normal_key_cases lg qw qu hqwpos hqu0 hqu1 hLG
              have hxgood : goodL (stepLine ctx lg f r (draws s.rng) s.i) := by
                show (stepLine ctx lg f r (draws s.rng) s.i).position_index ≠ F64.nan
                rw [hkey]
                rcases hcases with h | ⟨t, _, h⟩ <;> rw [h] <;> intro hc <;> cases hc
              have hxninf : ¬ infL (stepLine ctx lg f r (draws s.rng) s.i) := by
                show ¬ (stepLine ctx lg f r (draws s.rng) s.i).position_index = F64.posInf
                rw [hkey]
                rcases hcases with h | ⟨t, _, h⟩ <;> rw [h] <;> intro hc <;> cases hc
              have hfr : forced ctx.idc ctx.inc ctx.exc r = false := by
                unfold forced
                rw [hid]
                show (ctx.inc.contains f.raw && !(ctx.exc.contains f.raw)) = false
                rw [hin']
                rfl
              have hcnt1 : countInfM (s.heap : Multiset Line) +
                  rs.countP (forced ctx.idc ctx.inc ctx.exc) ≤ ctx.K := by
                rw [List.countP_cons_of_neg _ _ (fun hc => by rw [hfr] at hc; cases hc)] at hcnt
                exact hcnt
              have hcgood := goodAll_heapPush (lineCmp draws) s.heap _ (s.rng + 1) hg hxgood
              have hcA := heapPush_AInv draws s.heap _ (s.rng + 1) hg hxgood hA
              have hcm : countInfM ((heapPush (lineCmp draws) s.heap
                  (stepLine ctx lg f r (draws s.rng) s.i) (s.rng + 1)).1 : Multiset Line) =
                  countInfM (s.heap : Multiset Line) := by
                rw [hms1, countInfM_cons, if_neg hxninf]
                exact Nat.add_zero _
              rcases hcase with ⟨hnl, heq⟩ | ⟨hl, heq⟩
              · rw [heq] at hrun
                obtain ⟨hpres, hconc⟩ := ih _ s' hWr hcgood hcA (by rw [hcm]; omega) hrun
                refine ⟨?_, ?_⟩
                · intro l hl' hinfl
                  exact hpres l (heapPush_mem_of _ _ _ _ l hl') hinfl
                · intro r' hr' hfr'
                  rcases List.mem_cons.mp hr' with rfl | hr'
                  · rw [hfr'] at hfr; cases hfr
                  · exact hconc r' hr' hfr'
              · rw [heq] at hrun
                have hpos1 : 0 < (heapPush (lineCmp draws) s.heap
                    (stepLine ctx lg f r (draws s.rng) s.i) (s.rng + 1)).1.length := by
                  omega
                have hcntlt : countInfM ((heapPush (lineCmp draws) s.heap
                    (stepLine ctx lg f r (draws s.rng) s.i) (s.rng + 1)).1 : Multiset Line) <
                    (heapPush (lineCmp draws) s.heap
                      (stepLine ctx lg f r (draws s.rng) s.i) (s.rng + 1)).1.length := by
                  rw [hcm, hlen1]
                  omega
                obtain ⟨hppd, hninf⟩ := heapPop_noninf draws
                  (heapPush (lineCmp draws) s.heap
                    (stepLine ctx lg f r (draws s.rng) s.i) (s.rng + 1)).1
                  (heapPush (lineCmp draws) s.heap
                    (stepLine ctx lg f r (draws s.rng) s.i) (s.rng + 1)).2 hpos1 hcA hcntlt
                have hpopms := (heapPop_spec (lineCmp draws) _
                  (heapPush (lineCmp draws) s.heap
                    (stepLine ctx lg f r (draws s.rng) s.i) (s.rng + 1)).2 hpos1).2.2
                have hpopgood := goodAll_heapPop (lineCmp draws) _
                  (heapPush (lineCmp draws) s.heap
                    (stepLine ctx lg f r (draws s.rng) s.i) (s.rng + 1)).2 hcgood
                have hpopA := heapPop_AInv draws _
                  (heapPush (lineCmp draws) s.heap
                    (stepLine ctx lg f r (draws s.rng) s.i) (s.rng + 1)).2 hcgood hcA
                have hpopm : countInfM (((heapPop (lineCmp draws)
                    (heapPush (lineCmp draws) s.heap
                      (stepLine ctx lg f r (draws s.rng) s.i) (s.rng + 1)).1
                    (heapPush (lineCmp draws) s.heap
                      (stepLine ctx lg f r (draws s.rng) s.i) (s.rng + 1)).2).2.1 :
                      List Line) : Multiset Line) =
                    countInfM (s.heap : Multiset Line) := by
                  have := congrArg countInfM hpopms
                  rw [countInfM_cons, if_neg hninf] at this
                  omega
                have hmempop : ∀ l ∈ (heapPush (lineCmp draws) s.heap
                    (stepLine ctx lg f r (draws s.rng) s.i) (s.rng + 1)).1, infL l →
                    l ∈ (heapPop (lineCmp draws)
                      (heapPush (lineCmp draws) s.heap
                        (stepLine ctx lg f r (draws s.rng) s.i) (s.rng + 1)).1
                      (heapPush (lineCmp draws) s.heap
                        (stepLine ctx lg f r (draws s.rng) s.i) (s.rng + 1)).2).2.1 := by
                  intro l hl' hinfl
                  exact heapPop_mem_of _ _ _ hpos1 l hl'
                    (fun hc => hninf (hc ▸ hinfl))
                obtain ⟨hpres, hconc⟩ := ih _ s' hWr hpopgood hpopA
                  (by rw [hpopm]; omega) hrun
                refine ⟨?_, ?_⟩
                · intro l hl' hinfl
                  exact hpres l (hmempop l (heapPush_mem_of _ _ _ _ l hl') hinfl) hinfl
                · intro r' hr' hfr'
                  rcases List.mem_cons.mp hr' with rfl | hr'
                  · rw [hfr'] at hfr; cases hfr
                  · exact hconc r' hr' hfr'

/-! ### Characterisation of the zero-key panic and helper evaluations -/

theorem stepRecord_panic_iff (ctx : Ctx) (lg : ℚ → F64) (draws : Nat → F64)
    (r : Record) (s : LoopState) (f : Cell)
    (hid : r.get ctx.idc = some f) (hexc : ctx.exc.contains f.raw = false) :
    stepRecord ctx lg draws r s = .error .zeroKeyPanic ↔
      f64IsZero (stepLine ctx lg f r (draws s.rng) s.i).position_index = true := by
  have hexcn : ¬ ctx.exc.contains f.raw = true := fun hc => by rw [hexc] at hc; cases hc
  by_cases hz : f64IsZero (stepLine ctx lg f r (draws s.rng) s.i).position_index = true
  · have hrw : stepRecord ctx lg draws r s = .error .zeroKeyPanic := by
      simp only [stepRecord, hid]
      exact (if_neg hexcn).trans (if_pos hz)
    simp [hrw, hz]
  · constructor
    · intro hcon
      exfalso
      by_cases hpop : ctx.K < (heapPush (lineCmp draws) s.heap
          (stepLine ctx lg f r (draws s.rng) s.i) (s.rng + 1)).1.length
      · have hrw : stepRecord ctx lg draws r s = .ok
            { heap := (heapPop (lineCmp draws)
                (heapPush (lineCmp draws) s.heap
                  (stepLine ctx lg f r (draws s.rng) s.i) (s.rng + 1)).1
                (heapPush (lineCmp draws) s.heap
                  (stepLine ctx lg f r (draws s.rng) s.i) (s.rng + 1)).2).2.1,
              i := s.i + 1,
              rng := (heapPop (lineCmp draws)
                (heapPush (lineCmp draws) s.heap
                  (stepLine ctx lg f r (draws s.rng) s.i) (s.rng + 1)).1
                (heapPush (lineCmp draws) s.heap
                  (stepLine ctx lg f r (draws s.rng) s.i) (s.rng + 1)).2).2.2 } := by
          simp only [stepRecord, hid]
          exact ((if_neg hexcn).trans (if_neg hz)).trans (if_pos hpop)
        rw [hrw] at hcon
        cases hcon
      · have hrw : stepRecord ctx lg draws r s = .ok
            { heap := (heapPush (lineCmp draws) s.heap
                (stepLine ctx lg f r (draws s.rng) s.i) (s.rng + 1)).1,
              i := s.i + 1,
              rng := (heapPush (lineCmp draws) s.heap
                (stepLine ctx lg f r (draws s.rng) s.i) (s.rng + 1)).2 } := by
          simp only [stepRecord, hid]
          exact ((if_neg hexcn).trans (if_neg hz)).trans (if_neg hpop)
        rw [hrw] at hcon
        cases hcon
    · intro hcon
      exact absurd hcon hz

theorem stepRecord_ok_of_nonzero (ctx : Ctx) (lg : ℚ → F64) (draws : Nat → F64)
    (r : Record) (s : LoopState) (f : Cell)
    (hid : r.get ctx.idc = some f) (hexc : ctx.exc.contains f.raw = false)
    (hz : f64IsZero (stepLine ctx lg f r (draws s.rng) s.i).position_index = false) :
    ∃ s₁, stepRecord ctx lg draws r s = .ok s₁ := by
  have hexcn : ¬ ctx.exc.contains f.raw = true := fun hc => by rw [hexc] at hc; cases hc
  have hzn : ¬ f64IsZero (stepLine ctx lg f r (draws s.rng) s.i).position_index = true :=
    fun hc => by rw [hz] at hc; cases hc
  by_cases hpop : ctx.K < (heapPush (lineCmp draws) s.heap
      (stepLine ctx lg f r (draws s.rng) s.i) (s.rng + 1)).1.length
  · exact ⟨_, by
      simp only [stepRecord, hid]
      exact ((if_neg hexcn).trans (if_neg hzn)).trans (if_pos hpop)⟩
  · exact ⟨_, by
      simp only [stepRecord, hid]
      exact ((if_neg hexcn).trans (if_neg hzn)).trans (if_neg hpop)⟩

theorem f64Mul_posInf_neg (b : ℚ) (hb : b < 0) :
    f64Mul F64.posInf (F64.fin b) = F64.negInf := by
  simp only [f64Mul]
  rw [if_neg hb.ne, if_pos hb]

theorem f64Mul_zero_neg (b : ℚ) (hb : b < 0) :
    f64Mul (F64.fin 0) (F64.fin b) = F64.negZero := by
  simp only [f64Mul]
  rw [if_pos (zero_mul b), decide_eq_false (lt_irrefl (0 : ℚ)), decide_eq_true hb]
  rfl

theorem f64Mul_negZero_neg (b : ℚ) (hb : b < 0) :
    f64Mul F64.negZero (F64.fin b) = F64.fin 0 := by
  simp only [f64Mul]
  rw [if_pos hb]

theorem process_data_eq (args : Cli) (lg : ℚ → F64) (draws : Nat → F64)
    (header : List String) (records : List Record) (wcol : Option Nat) (idc : Nat)
    (hw : resolveWeightCol args.weights header = .ok wcol)
    (hi : resolveIdCol args.id_col header = .ok idc) :
    process_data lg args header records draws =
      match runLoop { wcol := wcol, idc := idc, inc := args.includeIds.getD [],
                      exc := args.excludeIds.getD [], K := args.sample_count }
          lg draws records { heap := [], i := 0, rng := 0 } with
      | .error e => .error e
      | .ok s => .ok { header := header, rows := s.heap.map Line.record } := by
  simp only [process_data, hw, hi]

/-! ### The claims -/

/-- C1: at end of stream the retained set has exactly
`min(K, number of Normal + ForcedInclude records offered)` elements, and
in particular never more than `K`; the heap is cut back to at most `K`
after every record (the same statement applied to each prefix of the
stream). -/
theorem c1_selector_bound (args : Cli) (lg : ℚ → F64) (draws : Nat → F64)
    (header : List String) (records : List Record) (wcol : Option Nat) (idc : Nat)
    (out : Output)
    (hw : resolveWeightCol args.weights header = .ok wcol)
    (hi : resolveIdCol args.id_col header = .ok idc)
    (hrun : process_data lg args header records draws = .ok out) :
    out.rows.length =
      min args.sample_count (records.countP (offered idc (args.excludeIds.getD []))) ∧
    out.rows.length ≤ args.sample_count := by
  rw [process_data_eq args lg draws header records wcol idc hw hi] at hrun
  cases hloop : runLoop { wcol := wcol, idc := idc, inc := args.includeIds.getD [], exc := args.excludeIds.getD [], K := args.sample_count } lg draws records { heap := [], i := 0, rng := 0 } with
  | error e => rw [hloop] at hrun; cases hrun
  | ok s =>
      rw [hloop] at hrun
      obtain rfl : out = { header := header, rows := s.heap.map Line.record } :=
        (Except.ok.inj hrun).symm
      have hlen := runLoop_length _ lg draws records _ s 0 (by simp) hloop
      have hmain : (s.heap.map Line.record).length =
          min args.sample_count
            (records.countP (offered idc (args.excludeIds.getD []))) := by
        rw [List.length_map, hlen, Nat.zero_add]
      exact ⟨hmain, by rw [hmain]; exact Nat.min_le_left _ _⟩

unseal Rat.mul Rat.inv in
theorem c1_selector_bound_witness :
    resolveWeightCol cliW.weights ["id"] = .ok none ∧
    resolveIdCol cliW.id_col ["id"] = .ok 0 ∧
    process_data lgW cliW ["id"] [recA, recB] drawsW =
      .ok { header := ["id"], rows := [recB] } ∧
    (({ header := ["id"], rows := [recB] } : Output).rows.length =
        min cliW.sample_count
          ([recA, recB].countP (offered 0 (cliW.excludeIds.getD []))) ∧
      ({ header := ["id"], rows := [recB] } : Output).rows.length ≤ cliW.sample_count) :=
  ⟨by decide, by decide, by decide,
    c1_selector_bound cliW lgW drawsW ["id"] [recA, recB] none 0
      { header := ["id"], rows := [recB] } (by decide) (by decide) (by decide)⟩

unseal Rat.mul Rat.inv in
/-- C2: evaluation at the failing input.  A `Normal` record whose weight
field is exactly `"0"` (weight `0.0`) does NOT abort the run: the key
becomes `(1/0) * log2(0.5) = -inf`, which is not caught by the
`index == 0.0` guard, so the run completes successfully and even retains
the record — contradicting the specified `WeightError`.  The panic
message `"Non-zero weights required for numerical precision."`
documents the intended rejection, so this is a bug in the guard. -/
theorem c2_zero_weight_not_rejected :
    process_data lgW cliC2 hdrW [recZeroW] drawsW =
      .ok { header := hdrW, rows := [recZeroW] } ∧
    get_weight (some 1) recZeroW = F64.fin 0 := by
  exact ⟨by decide, by decide⟩

/-- C3 counterexample: with `K = 1` and two forced-include records `X`
then `Y` (both in the include list, none excluded), the final heap holds
only one line, so `X` does not appear in the output even though its
identifier is in the include set and not in the exclude set. -/
theorem c3_forced_include_cex :
    process_data lgW cliC3 ["id"] [recX, recY] drawsW =
      .ok { header := ["id"], rows := [recY] } ∧
    (cliC3.includeIds.getD []).contains "X" = true ∧
    (cliC3.excludeIds.getD []).contains "X" = false ∧
    recX.get 0 = some ⟨"X", none⟩ ∧
    ¬ recX ∈ ({ header := ["id"], rows := [recY] } : Output).rows := by
  exact ⟨by decide, by decide, by decide, by decide, by decide⟩

/-- C3 (amended): provided the number of forced-include records does not
exceed `K`, every draw lies in `[0,1)`, `log2` is negative finite on
`(0,1)`, and every offered `Normal` record has a positive finite weight
(so that all keys are comparable and below the sentinel), every record
whose identifier is in the include list and not in the exclude list
appears in the output; forced includes receive the sentinel key
`f64::INFINITY`, which outranks every normally-computed key. -/
theorem c3_forced_include (args : Cli) (lg : ℚ → F64) (draws : Nat → F64)
    (header : List String) (records : List Record) (wcol : Option Nat) (idc : Nat)
    (out : Output)
    (hw : resolveWeightCol args.weights header = .ok wcol)
    (hi : resolveIdCol args.id_col header = .ok idc)
    (hU : ∀ n, ∃ q, draws n = F64.fin q ∧ 0 ≤ q ∧ q < 1)
    (hLG : ∀ q, 0 < q → q < 1 → ∃ t, lg q = F64.fin t ∧ t < 0)
    (hW : ∀ r ∈ records, ∀ f, r.get idc = some f →
      (args.excludeIds.getD []).contains f.raw = false →
      (args.includeIds.getD []).contains f.raw = false →
      ∃ qw, get_weight wcol r = F64.fin qw ∧ 0 < qw)
    (hcnt : records.countP
        (forced idc (args.includeIds.getD []) (args.excludeIds.getD [])) ≤
        args.sample_count)
    (hrun : process_data lg args header records draws = .ok out) :
    ∀ r ∈ records,
      forced idc (args.includeIds.getD []) (args.excludeIds.getD []) r = true →
      r ∈ out.rows := by
  rw [process_data_eq args lg draws header records wcol idc hw hi] at hrun
  cases hloop : runLoop { wcol := wcol, idc := idc, inc := args.includeIds.getD [], exc := args.excludeIds.getD [], K := args.sample_count } lg draws records { heap := [], i := 0, rng := 0 } with
  | error e => rw [hloop] at hrun; cases hrun
  | ok s =>
      rw [hloop] at hrun
      obtain rfl : out = { header := header, rows := s.heap.map Line.record } :=
        (Except.ok.inj hrun).symm
      have hforce := runLoop_forced
        { wcol := wcol, idc := idc, inc := args.includeIds.getD [],
          exc := args.excludeIds.getD [], K := args.sample_count }
        lg draws hU hLG records { heap := [], i := 0, rng := 0 } s hW
        (fun l hl => absurd hl (List.not_mem_nil l))
        (fun j hj => absurd hj (Nat.not_lt_zero j))
        (by
          have h0 : countInfM (([] : List Line) : Multiset Line) = 0 := rfl
          rw [h0, Nat.zero_add]
          exact hcnt)
        hloop
      intro r hr hfr
      obtain ⟨l, hl, hrec, _⟩ := hforce.2 r hr hfr
      exact List.mem_map.mpr ⟨l, hl, hrec⟩

unseal Rat.mul Rat.inv in
theorem c3_forced_include_witness :
    process_data lgW cliC3b hdrW [recA1000, recX1] drawsW =
      .ok { header := hdrW, rows := [recX1] } ∧
    forced 0 (cliC3b.includeIds.getD []) (cliC3b.excludeIds.getD []) recX1 = true ∧
    recX1 ∈ ({ header := hdrW, rows := [recX1] } : Output).rows :=
  ⟨by decide, by decide,
    c3_forced_include cliC3b lgW drawsW hdrW [recA1000, recX1] (some 1) 0
      { header := hdrW, rows := [recX1] } (by decide) (by decide)
      (fun _ => ⟨1/2, rfl, by norm_num, by norm_num⟩)
      (fun _ _ _ => ⟨-1, rfl, by norm_num⟩)
      (by
        intro r hr f hf hexc hinc
        rcases List.mem_cons.mp hr with rfl | hr
        · exact ⟨1000, by decide, by norm_num⟩
        · rcases List.mem_cons.mp hr with rfl | hr
          · have hfe : (⟨"X", none⟩ : Cell) = f := Option.some.inj hf
            rw [← hfe] at hinc
            exact absurd hinc (by decide)
          · exact absurd hr (List.not_mem_nil r))
      (by decide) (by decide) recX1 (by decide) (by decide)⟩

/-- C4: no record whose identifier is in the exclude list ever appears
in the output, regardless of its weight: every output row has its
identifier field present and not contained in the exclude list.  Since
exclusion is tested before the include list is consulted, this covers in
particular identifiers present in both lists (exclusion wins). -/
theorem c4_exclusion (args : Cli) (lg : ℚ → F64) (draws : Nat → F64)
    (header : List String) (records : List Record) (wcol : Option Nat) (idc : Nat)
    (out : Output)
    (hw : resolveWeightCol args.weights header = .ok wcol)
    (hi : resolveIdCol args.id_col header = .ok idc)
    (hrun : process_data lg args header records draws = .ok out) :
    ∀ r ∈ out.rows, ∃ f, r.get idc = some f ∧
      (args.excludeIds.getD []).contains f.raw = false := by
  rw [process_data_eq args lg draws header records wcol idc hw hi] at hrun
  cases hloop : runLoop { wcol := wcol, idc := idc, inc := args.includeIds.getD [], exc := args.excludeIds.getD [], K := args.sample_count } lg draws records { heap := [], i := 0, rng := 0 } with
  | error e => rw [hloop] at hrun; cases hrun
  | ok s =>
      rw [hloop] at hrun
      obtain rfl : out = { header := header, rows := s.heap.map Line.record } :=
        (Except.ok.inj hrun).symm
      intro r hr
      obtain ⟨l, hl, hrec⟩ := List.mem_map.mp hr
      have hmem := runLoop_mem
        { wcol := wcol, idc := idc, inc := args.includeIds.getD [],
          exc := args.excludeIds.getD [], K := args.sample_count }
        lg draws
        (fun l => ∃ f, l.record.get idc = some f ∧
          (args.excludeIds.getD []).contains f.raw = false)
        (fun _ f _ _ hid' hexc' => ⟨f, hid', hexc'⟩)
        records _ s (fun l hl => absurd hl (List.not_mem_nil l)) hloop l hl
      obtain ⟨f, hf, hfe⟩ := hmem
      exact ⟨f, hrec ▸ hf, hfe⟩

unseal Rat.mul Rat.inv in
theorem c4_exclusion_witness :
    process_data lgW cliC4 ["id"] [recA, recB] drawsW =
      .ok { header := ["id"], rows := [recA] } ∧
    ¬ recB ∈ ({ header := ["id"], rows := [recA] } : Output).rows ∧
    (∀ r ∈ ({ header := ["id"], rows := [recA] } : Output).rows,
      ∃ f, r.get 0 = some f ∧ (cliC4.excludeIds.getD []).contains f.raw = false) :=
  ⟨by decide, by decide,
    c4_exclusion cliC4 lgW drawsW ["id"] [recA, recB] none 0
      { header := ["id"], rows := [recA] } (by decide) (by decide) (by decide)⟩

/-- C5 counterexample: two lines with exactly equal (finite) keys and
distinct arrival indices compare as `Equal`, for either outcome of the
coin stream, and the rng cursor is not advanced: the comparison is NOT
resolved by a random choice between the two arrival indices (which
would produce `lt` or `gt`). -/
theorem c5_equal_keys_cex :
    lineE0.position_index = lineE1.position_index ∧
    lineE0.tie_breaker ≠ lineE1.tie_breaker ∧
    lineCmp drawsHi lineE0 lineE1 0 = (Ordering.eq, 0) ∧
    lineCmp drawsLo lineE0 lineE1 0 = (Ordering.eq, 0) := by
  exact ⟨by decide, by decide, by decide, by decide⟩

/-- C5 (amended): whenever the two keys are comparable (in particular
when they are exactly equal) the comparison returns the float ordering
of the reversed operands and consumes no randomness; only when the keys
are incomparable — exactly when one of them is NaN — is one random draw
consumed, and the coin `draw > 0.5` chooses the direction in which the
two integer arrival indices are compared. -/
theorem c5_tie_break_policy (d : Nat → F64) (a b : Line) (k : Nat) :
    (∀ o, f64PartialCmp b.position_index a.position_index = some o →
      lineCmp d a b k = (o, k)) ∧
    (f64PartialCmp b.position_index a.position_index = none →
      (f64Gt (d k) (F64.fin (1/2)) = true →
        lineCmp d a b k = (compare b.tie_breaker a.tie_breaker, k + 1)) ∧
      (f64Gt (d k) (F64.fin (1/2)) = false →
        lineCmp d a b k = (compare a.tie_breaker b.tie_breaker, k + 1))) ∧
    (f64PartialCmp b.position_index a.position_index = none ↔
      b.position_index = F64.nan ∨ a.position_index = F64.nan) := by
  refine ⟨fun o ho => lineCmp_of_some d a b k o ho, fun hnone => ⟨?_, ?_⟩,
    f64PartialCmp_none _ _⟩
  · intro hcoin
    simp only [lineCmp, hnone]
    rw [hcoin, if_pos rfl]
  · intro hcoin
    simp only [lineCmp, hnone]
    rw [hcoin, if_neg Bool.false_ne_true]

unseal Rat.mul Rat.inv in
theorem c5_tie_break_policy_witness :
    f64PartialCmp lineE0.position_index lineN.position_index = none ∧
    lineCmp drawsHi lineN lineE0 0 = (compare lineE0.tie_breaker lineN.tie_breaker, 1) ∧
    lineCmp drawsLo lineN lineE0 0 = (compare lineN.tie_breaker lineE0.tie_breaker, 1) :=
  ⟨by decide,
    ((c5_tie_break_policy drawsHi lineN lineE0 0).2.1 (by decide)).1 (by decide),
    ((c5_tie_break_policy drawsLo lineN lineE0 0).2.1 (by decide)).2 (by decide)⟩

unseal Rat.mul Rat.inv in
/-- C6 counterexample: with a weight column configured and a record
whose weight field does not parse, the run does NOT continue: it aborts
with the zero-key panic (the sentinel weight `-inf` makes the computed
key `+0.0`). -/
theorem c6_unparseable_weight_cex :
    process_data lgW cliC2 hdrW [recBadW] drawsW = .error RunError.zeroKeyPanic := by
  decide

/-- C6 (amended): when a weight column is configured and the record's
weight field is missing or unparseable, `get_weight` silently yields the
sentinel `f64::NEG_INFINITY`; the computed key `(1 / -inf) * log2 u` is
then `0.0` for every draw `u ∈ (0,1)`, so the record trips the
`index == 0.0` panic and the whole run aborts instead of continuing. -/
theorem c6_unparseable_weight (ctx : Ctx) (lg : ℚ → F64) (draws : Nat → F64)
    (r : Record) (s : LoopState) (f : Cell) (c : Nat) (qu rv : ℚ)
    (hid : r.get ctx.idc = some f) (hexc : ctx.exc.contains f.raw = false)
    (hinc : ctx.inc.contains f.raw = false)
    (hwc : ctx.wcol = some c)
    (hcell : r.get c = none ∨ ∃ cell, r.get c = some cell ∧ cell.parsed = none)
    (hqu : draws s.rng = F64.fin qu) (h0 : 0 < qu) (h1 : qu < 1)
    (hlg : lg qu = F64.fin rv) (hrv : rv < 0) :
    get_weight ctx.wcol r = F64.negInf ∧
    stepRecord ctx lg draws r s = .error .zeroKeyPanic := by
  have hgw : get_weight ctx.wcol r = F64.negInf := by
    rcases hcell with hc | ⟨cell, hc, hp⟩
    · simp [get_weight, hwc, hc]
    · simp [get_weight, hwc, hc, hp]
  refine ⟨hgw, ?_⟩
  rw [stepRecord_panic_iff ctx lg draws r s f hid hexc]
  have hdiv : f64Div (F64.fin 1) F64.negInf = F64.negZero := by decide
  have hkey : (stepLine ctx lg f r (draws s.rng) s.i).position_index = F64.fin 0 := by
    show (if ctx.inc.contains f.raw = true then F64.posInf
      else f64Mul (f64Div (F64.fin 1) (get_weight ctx.wcol r))
        (f64Log2 lg (draws s.rng))) = F64.fin 0
    rw [if_neg (fun hc => by rw [hinc] at hc; cases hc), hgw, hqu,
      f64Log2_fin_pos lg qu h0, hlg, hdiv]
    exact f64Mul_negZero_neg rv hrv
  rw [hkey]
  decide

unseal Rat.mul Rat.inv in
theorem c6_unparseable_weight_witness :
    get_weight ctxW.wcol recBadW = F64.negInf ∧
    stepRecord ctxW lgW drawsW recBadW { heap := [], i := 0, rng := 0 } =
      .error RunError.zeroKeyPanic :=
  c6_unparseable_weight ctxW lgW drawsW recBadW { heap := [], i := 0, rng := 0 }
    ⟨"a", none⟩ 1 (1/2) (-1) (by decide) (by decide) (by decide) rfl
    (Or.inr ⟨⟨"abc", none⟩, by decide, rfl⟩) rfl (by norm_num) (by norm_num) rfl
    (by norm_num)

unseal Rat.mul Rat.inv in
/-- C7 counterexample: a sample count of zero is NOT rejected during
initialization: the run with `K = 0` completes successfully (emitting
only the header), contradicting the claimed fatal configuration
error. -/
theorem c7_zero_sample_cex :
    process_data lgW cliK0 ["id"] [recA] drawsW =
      .ok { header := ["id"], rows := [] } := by
  decide

/-- C7 (amended): a sample count of zero is accepted without any check;
the run proceeds normally and ends with an empty retained set (every
pushed line is immediately popped again), so the output consists of the
header alone. -/
theorem c7_zero_sample (args : Cli) (lg : ℚ → F64) (draws : Nat → F64)
    (header : List String) (records : List Record) (out : Output)
    (hK : args.sample_count = 0)
    (hrun : process_data lg args header records draws = .ok out) :
    out.rows = [] := by
  cases hw : resolveWeightCol args.weights header with
  | error e => simp [process_data, hw] at hrun
  | ok wcol =>
      cases hi : resolveIdCol args.id_col header with
      | error e => simp [process_data, hw, hi] at hrun
      | ok idc =>
          rw [process_data_eq args lg draws header records wcol idc hw hi] at hrun
          cases hloop : runLoop { wcol := wcol, idc := idc, inc := args.includeIds.getD [], exc := args.excludeIds.getD [], K := args.sample_count } lg draws records { heap := [], i := 0, rng := 0 } with
          | error e => rw [hloop] at hrun; cases hrun
          | ok s =>
              rw [hloop] at hrun
              obtain rfl : out = { header := header, rows := s.heap.map Line.record } :=
                (Except.ok.inj hrun).symm
              have hlen := runLoop_length _ lg draws records _ s 0 (by simp) hloop
              have h0 : s.heap.length = 0 := by
                rw [hlen]
                show min args.sample_count _ = 0
                rw [hK]
                simp
              show s.heap.map Line.record = []
              rw [List.length_eq_zero.mp h0]
              rfl

unseal Rat.mul Rat.inv in
theorem c7_zero_sample_witness :
    cliK0.sample_count = 0 ∧
    process_data lgW cliK0 ["id"] [recA] drawsW =
      .ok { header := ["id"], rows := [] } ∧
    ({ header := ["id"], rows := [] } : Output).rows = [] :=
  ⟨rfl, by decide,
    c7_zero_sample cliK0 lgW drawsW ["id"] [recA]
      { header := ["id"], rows := [] } rfl (by decide)⟩

/-- C8: every line retained at end of stream carries the sampling key it
was assigned when pushed: its stored key equals the formula
`(1/weight) * log2(randomness)` applied to its stored weight and its
stored random draw (for `Normal` records; forced includes carry the
sentinel), and its stored weight is `get_weight` of its record — the key
is computed once per record and never recomputed. -/
theorem c8_key_formula (ctx : Ctx) (lg : ℚ → F64) (draws : Nat → F64)
    (records : List Record) (s' : LoopState)
    (hrun : runLoop ctx lg draws records { heap := [], i := 0, rng := 0 } = .ok s') :
    ∀ l ∈ s'.heap, ∃ f, l.record.get ctx.idc = some f ∧
      ctx.exc.contains f.raw = false ∧
      l.weight = get_weight ctx.wcol l.record ∧
      (ctx.inc.contains f.raw = false →
        l.position_index =
          f64Mul (f64Div (F64.fin 1) l.weight) (f64Log2 lg l.randomness)) := by
  exact runLoop_mem ctx lg draws
    (fun l => ∃ f, l.record.get ctx.idc = some f ∧
      ctx.exc.contains f.raw = false ∧
      l.weight = get_weight ctx.wcol l.record ∧
      (ctx.inc.contains f.raw = false →
        l.position_index =
          f64Mul (f64Div (F64.fin 1) l.weight) (f64Log2 lg l.randomness)))
    (fun _ f _ _ hid' hexc' =>
      ⟨f, hid', hexc', rfl, fun hinc => if_neg (fun hc => by rw [hinc] at hc; cases hc)⟩)
    records _ s' (fun l hl => absurd hl (List.not_mem_nil l)) hrun

unseal Rat.mul Rat.inv in
theorem c8_key_formula_witness :
    runLoop ctxW lgW drawsW [recA1000] { heap := [], i := 0, rng := 0 } = .ok sC8 ∧
    (∀ l ∈ sC8.heap, ∃ f, l.record.get ctxW.idc = some f ∧
      ctxW.exc.contains f.raw = false ∧
      l.weight = get_weight ctxW.wcol l.record ∧
      (ctxW.inc.contains f.raw = false →
        l.position_index =
          f64Mul (f64Div (F64.fin 1) l.weight) (f64Log2 lgW l.randomness))) :=
  ⟨by decide, c8_key_formula ctxW lgW drawsW [recA1000] sC8 (by decide)⟩

/-- C9: two runs over the same arguments, header, record stream and
`log2` oracle, with draw streams that agree at every index, produce
identical results (bit-identical output, same rows in the same
order). -/
theorem c9_determinism (lg : ℚ → F64) (args : Cli) (header : List String)
    (records : List Record) (d1 d2 : Nat → F64) (h : ∀ n, d1 n = d2 n) :
    process_data lg args header records d1 = process_data lg args header records d2 := by
  rw [funext h]

unseal Rat.mul Rat.inv in
theorem c9_determinism_witness :
    (∀ n, drawsW n = drawsW2 n) ∧
    process_data lgW cliW ["id"] [recA, recB] drawsW =
      process_data lgW cliW ["id"] [recA, recB] drawsW2 :=
  ⟨fun _ => by show F64.fin (1/2) = F64.fin (2/4); decide,
    c9_determinism lgW cliW ["id"] [recA, recB] drawsW drawsW2
      (fun _ => by show F64.fin (1/2) = F64.fin (2/4); decide)⟩

/-- C10: the fatal guard fires exactly when the computed key compares
equal to `0.0` (positive or negative zero), not when the weight is zero:
for a `Normal` record, (i) the abort happens iff
`f64IsZero ((1/w) * log2 u)`; (ii) a weight of exactly `+0.0` yields key
`-inf` and the record is silently kept (the step succeeds); (iii) a
weight of `+inf` yields key `-0.0` and the run aborts with the panic;
(iv) the sentinel weight `-inf` assigned for a missing/unparseable
weight yields key `+0.0` and the run aborts with the panic. -/
theorem c10_zero_key_guard (ctx : Ctx) (lg : ℚ → F64) (draws : Nat → F64)
    (s : LoopState) (qu rv : ℚ) (rg r0 rI rS : Record) (fg f0 fI fS : Cell)
    (hqu : draws s.rng = F64.fin qu) (h0 : 0 < qu) (h1 : qu < 1)
    (hlg : lg qu = F64.fin rv) (hrv : rv < 0)
    (hgid : rg.get ctx.idc = some fg) (hgexc : ctx.exc.contains fg.raw = false)
    (hginc : ctx.inc.contains fg.raw = false)
    (hid0 : r0.get ctx.idc = some f0) (hexc0 : ctx.exc.contains f0.raw = false)
    (hinc0 : ctx.inc.contains f0.raw = false)
    (hw0 : get_weight ctx.wcol r0 = F64.fin 0)
    (hidI : rI.get ctx.idc = some fI) (hexcI : ctx.exc.contains fI.raw = false)
    (hincI : ctx.inc.contains fI.raw = false)
    (hwI : get_weight ctx.wcol rI = F64.posInf)
    (hidS : rS.get ctx.idc = some fS) (hexcS : ctx.exc.contains fS.raw = false)
    (hincS : ctx.inc.contains fS.raw = false)
    (hwS : get_weight ctx.wcol rS = F64.negInf) :
    (stepRecord ctx lg draws rg s = .error .zeroKeyPanic ↔
      f64IsZero (f64Mul (f64Div (F64.fin 1) (get_weight ctx.wcol rg))
        (f64Log2 lg (draws s.rng))) = true) ∧
    (f64Mul (f64Div (F64.fin 1) (get_weight ctx.wcol r0)) (f64Log2 lg (draws s.rng)) =
        F64.negInf ∧
      ∃ s₁, stepRecord ctx lg draws r0 s = .ok s₁) ∧
    (f64Mul (f64Div (F64.fin 1) (get_weight ctx.wcol rI)) (f64Log2 lg (draws s.rng)) =
        F64.negZero ∧
      stepRecord ctx lg draws rI s = .error .zeroKeyPanic) ∧
    (f64Mul (f64Div (F64.fin 1) (get_weight ctx.wcol rS)) (f64Log2 lg (draws s.rng)) =
        F64.fin 0 ∧
      stepRecord ctx lg draws rS s = .error .zeroKeyPanic) := by
  have hlog : f64Log2 lg (draws s.rng) = F64.fin rv := by
    rw [hqu, f64Log2_fin_pos lg qu h0, hlg]
  have hkeyeq : ∀ (r : Record) (f : Cell), ctx.inc.contains f.raw = false →
      (stepLine ctx lg f r (draws s.rng) s.i).position_index =
        f64Mul (f64Div (F64.fin 1) (get_weight ctx.wcol r)) (f64Log2 lg (draws s.rng)) :=
    fun r f hinc => if_neg (fun hc => by rw [hinc] at hc; cases hc)
  have hdiv0 : f64Div (F64.fin 1) (F64.fin 0) = F64.posInf := by decide
  have hdivI : f64Div (F64.fin 1) F64.posInf = F64.fin 0 := by decide
  have hdivS : f64Div (F64.fin 1) F64.negInf = F64.negZero := by decide
  refine ⟨?_, ⟨?_, ?_⟩, ⟨?_, ?_⟩, ⟨?_, ?_⟩⟩
  · rw [stepRecord_panic_iff ctx lg draws rg s fg hgid hgexc, hkeyeq rg fg hginc]
  · rw [hw0, hlog, hdiv0]
    exact f64Mul_posInf_neg rv hrv
  · refine stepRecord_ok_of_nonzero ctx lg draws r0 s f0 hid0 hexc0 ?_
    rw [hkeyeq r0 f0 hinc0, hw0, hlog, hdiv0, f64Mul_posInf_neg rv hrv]
    decide
  · rw [hwI, hlog, hdivI]
    exact f64Mul_zero_neg rv hrv
  · rw [stepRecord_panic_iff ctx lg draws rI s fI hidI hexcI,
      hkeyeq rI fI hincI, hwI, hlog, hdivI, f64Mul_zero_neg rv hrv]
    decide
  · rw [hwS, hlog, hdivS]
    exact f64Mul_negZero_neg rv hrv
  · rw [stepRecord_panic_iff ctx lg draws rS s fS hidS hexcS,
      hkeyeq rS fS hincS, hwS, hlog, hdivS, f64Mul_negZero_neg rv hrv]
    decide

unseal Rat.mul Rat.inv in
theorem c10_zero_key_guard_witness :
    get_weight ctxW.wcol recZeroW = F64.fin 0 ∧
    get_weight ctxW.wcol recInfW = F64.posInf ∧
    get_weight ctxW.wcol recBadW = F64.negInf ∧
    ((stepRecord ctxW lgW drawsW recA1000 { heap := [], i := 0, rng := 0 } =
        .error .zeroKeyPanic ↔
      f64IsZero (f64Mul (f64Div (F64.fin 1) (get_weight ctxW.wcol recA1000))
        (f64Log2 lgW (drawsW 0))) = true) ∧
    (f64Mul (f64Div (F64.fin 1) (get_weight ctxW.wcol recZeroW))
        (f64Log2 lgW (drawsW 0)) = F64.negInf ∧
      ∃ s₁, stepRecord ctxW lgW drawsW recZeroW { heap := [], i := 0, rng := 0 } =
        .ok s₁) ∧
    (f64Mul (f64Div (F64.fin 1) (get_weight ctxW.wcol recInfW))
        (f64Log2 lgW (drawsW 0)) = F64.negZero ∧
      stepRecord ctxW lgW drawsW recInfW { heap := [], i := 0, rng := 0 } =
        .error .zeroKeyPanic) ∧
    (f64Mul (f64Div (F64.fin 1) (get_weight ctxW.wcol recBadW))
        (f64Log2 lgW (drawsW 0)) = F64.fin 0 ∧
      stepRecord ctxW lgW drawsW recBadW { heap := [], i := 0, rng := 0 } =
        .error .zeroKeyPanic)) :=
  ⟨by decide, by decide, by decide,
    c10_zero_key_guard ctxW lgW drawsW { heap := [], i := 0, rng := 0 } (1/2) (-1)
      recA1000 recZeroW recInfW recBadW ⟨"A", none⟩ ⟨"a", none⟩ ⟨"b", none⟩ ⟨"a", none⟩
      rfl (by norm_num) (by norm_num) rfl (by norm_num)
      (by decide) (by decide) (by decide)
      (by decide) (by decide) (by decide) (by decide)
      (by decide) (by decide) (by decide) (by decide)
      (by decide) (by decide) (by decide) (by decide)⟩

end Rscli
